import Mathlib

/-!
# Verification of the `bpers` byte-pair-encoding core

Shallow embedding of the `bpers` crate (files `src/bpe.rs`, `src/vocabulary.rs`,
`src/token_pair.rs`).  Symbol ids are `u32` in Rust; they are modelled as `Nat`
(no arithmetic in the code can overflow for any realistic corpus, and no claim
depends on wrap-around).  The two hash maps of `Vocabulary` are modelled as
association lists without duplicate keys, with `insertKV` mirroring
`HashMap::insert` (replace if present, append otherwise); `length` then agrees
with `HashMap::len`.  Strings are modelled as lists of Unicode code points,
exactly as the Rust code immediately converts them (`chars().map(|c| c as u32)`).
-/

set_option linter.unusedVariables false

namespace BPE

/-- `Token` from `token_pair.rs`: `Lonely(u32)` or `Pair { left, right }`. -/
inductive Token where
  | lonely (code : Nat)
  | pair (left right : Nat)
deriving DecidableEq, Repr

/-- `EncodingError` from `bpe.rs`.  The Rust `CharNotInVocab` variant also
carries a rendering of the character as a string; that rendering is a pure
function of the carried code point, so only the code point is modelled. -/
inductive EncodingError where
  | charNotInVocab (code : Nat)
  | invalidChar (code : Nat)
  | unknownToken (code : Nat)
deriving DecidableEq, Repr

/-- Lookup in an association list, mirroring `HashMap::get`. -/
def lookupKV {α β : Type} [DecidableEq α] : List (α × β) → α → Option β
  | [], _ => none
  | (k, v) :: rest, k' => if k = k' then some v else lookupKV rest k'

/-- Membership test, mirroring `HashMap::contains_key`. -/
def containsKV {α β : Type} [DecidableEq α] (m : List (α × β)) (k : α) : Bool :=
  (lookupKV m k).isSome

/-- Insertion, mirroring `HashMap::insert`: replace the binding in place if the
key is present, otherwise add a new binding. -/
def insertKV {α β : Type} [DecidableEq α] : List (α × β) → α → β → List (α × β)
  | [], k, v => [(k, v)]
  | (k', v') :: rest, k, v =>
      if k' = k then (k, v) :: rest else (k', v') :: insertKV rest k v

/-- `Vocabulary` from `vocabulary.rs`. -/
structure Vocabulary where
  id_to_token : List (Nat × Token)
  token_pair_to_id : List ((Nat × Nat) × Nat)
  next_token_id : Nat
deriving DecidableEq, Repr

/-- `Vocabulary::new()`. -/
def Vocabulary.new : Vocabulary := ⟨[], [], 0⟩

/-- `tokens.windows(2)` as a list of adjacent pairs. -/
def windows2 : List Nat → List (Nat × Nat)
  | a :: b :: rest => (a, b) :: windows2 (b :: rest)
  | _ => []

/-- One step of the frequency count: `*map.entry(pair).or_insert(0) += 1` on an
insertion-ordered map (`IndexMap`): increment in place if present, append with
count 1 otherwise. -/
def bump : List ((Nat × Nat) × Nat) → (Nat × Nat) → List ((Nat × Nat) × Nat)
  | [], p => [(p, 1)]
  | (q, n) :: rest, p => if q = p then (q, n + 1) :: rest else (q, n) :: bump rest p

/-- The adjacent-pair frequency map of `Vocabulary::learn`, in first-occurrence
(insertion) order, which is the iteration order of `IndexMap`. -/
def tally (ws : List (Nat × Nat)) : List ((Nat × Nat) × Nat) :=
  ws.foldl bump []

/-- Rust `Iterator::max_by_key(|(_, freq)| *freq)`: maximum by count, and when
several entries are equally maximal the **last** one in iteration order is
returned. -/
def maxByFreq : List ((Nat × Nat) × Nat) → Option ((Nat × Nat) × Nat)
  | [] => none
  | e :: rest =>
      match maxByFreq rest with
      | none => some e
      | some b => if b.2 ≥ e.2 then some b else some e

/-- The rewrite loop shared by `Vocabulary::learn` and `encode`: scan left to
right; whenever the current and next element are exactly `(l, r)`, emit
`newId` and advance two positions, otherwise emit the current element and
advance one; a dangling final element is emitted unchanged. -/
def mergePass (l r newId : Nat) : List Nat → List Nat
  | a :: b :: rest =>
      if a = l ∧ b = r then newId :: mergePass l r newId rest
      else a :: mergePass l r newId (b :: rest)
  | [a] => [a]
  | [] => []

/-- Registration of a winning pair in `Vocabulary::learn`: insert
`next_token_id → Pair` into `id_to_token`, `pair → next_token_id` into
`token_pair_to_id`, and increment the counter. -/
def registerMerge (v : Vocabulary) (p : Nat × Nat) : Vocabulary :=
  { id_to_token := insertKV v.id_to_token v.next_token_id (Token.pair p.1 p.2)
    token_pair_to_id := insertKV v.token_pair_to_id p v.next_token_id
    next_token_id := v.next_token_id + 1 }

/-- The merge loop of `Vocabulary::learn` (`for _ in 0..n_merges`): tally the
adjacent pairs, take the most frequent (ties: last in insertion order), stop
unless its frequency exceeds 1, otherwise register the merge under
`next_token_id`, rewrite the tokenization and continue. -/
def learnLoop : Nat → Vocabulary → List Nat → Vocabulary × List Nat
  | 0, v, toks => (v, toks)
  | n + 1, v, toks =>
      match maxByFreq (tally (windows2 toks)) with
      | some (p, f) =>
          if 1 < f then
            learnLoop n (registerMerge v p) (mergePass p.1 p.2 v.next_token_id toks)
          else (v, toks)
      | none => (v, toks)

/-- The atom-seeding pass of `Vocabulary::learn`: for each corpus code point not
already a key, insert it as `Lonely`. -/
def seedAtoms (v : Vocabulary) (toks : List Nat) : Vocabulary :=
  toks.foldl
    (fun v t =>
      if containsKV v.id_to_token t then v
      else { v with id_to_token := insertKV v.id_to_token t (Token.lonely t) })
    v

/-- `max_char` as computed in `Vocabulary::learn`: running maximum starting
from 0. -/
def maxChar (corpus : List Nat) : Nat :=
  corpus.foldl (fun m c => if c > m then c else m) 0

/-- `Vocabulary::learn` from `vocabulary.rs`: compute `max_char`, initialise
`next_token_id` to `max_char + 1` only if it is still 0, seed the atoms, then
run the merge loop.  Returns the mutated vocabulary together with the final
tokenization of the corpus. -/
def learn (v : Vocabulary) (corpus : List Nat) (n_merges : Nat) : Vocabulary × List Nat :=
  let v1 := if v.next_token_id = 0 then { v with next_token_id := maxChar corpus + 1 } else v
  learnLoop n_merges (seedAtoms v1 corpus) corpus

/-- The `best_pair` scan of `encode`: walk the adjacent pairs left to right and
keep the pair whose registered merged id is smallest (strict `<`, so the
leftmost occurrence of the smallest id is kept). -/
def findBest (m : List ((Nat × Nat) × Nat)) :
    List (Nat × Nat) → Option ((Nat × Nat) × Nat) → Option ((Nat × Nat) × Nat)
  | [], best => best
  | w :: ws, best =>
      match lookupKV m w with
      | some i =>
          match best with
          | none => findBest m ws (some (w, i))
          | some (bp, bi) => findBest m ws (some (if i < bi then (w, i) else (bp, bi)))
      | none => findBest m ws best

def findBestPair (m : List ((Nat × Nat) × Nat)) (toks : List Nat) :
    Option ((Nat × Nat) × Nat) :=
  findBest m (windows2 toks) none

/-- Auxiliary length facts used for the termination of `encodeLoop`. -/
theorem mergePass_length_le (l r id : Nat) : ∀ toks, (mergePass l r id toks).length ≤ toks.length
  | [] => Nat.le_refl _
  | [a] => Nat.le_refl _
  | a :: b :: rest => by
      rw [mergePass]
      by_cases h : a = l ∧ b = r
      · rw [if_pos h]
        have := mergePass_length_le l r id rest
        simp only [List.length_cons]
        omega
      · rw [if_neg h]
        have := mergePass_length_le l r id (b :: rest)
        simp only [List.length_cons] at *
        omega

theorem mergePass_length_lt (l r id : Nat) :
    ∀ toks, (l, r) ∈ windows2 toks → (mergePass l r id toks).length < toks.length
  | [], h => by simp [windows2] at h
  | [a], h => by simp [windows2] at h
  | a :: b :: rest, h => by
      rw [mergePass]
      by_cases hab : a = l ∧ b = r
      · rw [if_pos hab]
        have := mergePass_length_le l r id rest
        simp only [List.length_cons]
        omega
      · rw [if_neg hab]
        have hmem : (l, r) ∈ windows2 (b :: rest) := by
          simp only [windows2, List.mem_cons] at h
          rcases h with h | h
          · cases h
            exact absurd ⟨rfl, rfl⟩ hab
          · exact h
        have := mergePass_length_lt l r id (b :: rest) hmem
        simp only [List.length_cons] at *
        omega

theorem findBest_mem (m : List ((Nat × Nat) × Nat)) :
    ∀ ws best p i, findBest m ws best = some (p, i) →
      best = some (p, i) ∨ (p ∈ ws ∧ lookupKV m p = some i)
  | [], best, p, i, h => Or.inl h
  | w :: ws, best, p, i, h => by
      unfold findBest at h
      cases hw : lookupKV m w with
      | none =>
          rw [hw] at h
          rcases findBest_mem m ws best p i h with h' | h'
          · exact Or.inl h'
          · exact Or.inr ⟨List.mem_cons_of_mem _ h'.1, h'.2⟩
      | some j =>
          rw [hw] at h
          cases best with
          | none =>
              rcases findBest_mem m ws (some (w, j)) p i h with h' | h'
              · cases h'
                exact Or.inr ⟨List.mem_cons_self _ _, hw⟩
              · exact Or.inr ⟨List.mem_cons_of_mem _ h'.1, h'.2⟩
          | some b =>
              obtain ⟨bp, bi⟩ := b
              rcases findBest_mem m ws _ p i h with h' | h'
              · by_cases hj : j < bi
                · simp only [hj, if_pos] at h'
                  cases h'
                  exact Or.inr ⟨List.mem_cons_self _ _, hw⟩
                · simp only [hj, if_neg, not_false_iff] at h'
                  exact Or.inl h'
              · exact Or.inr ⟨List.mem_cons_of_mem _ h'.1, h'.2⟩

theorem findBestPair_mem {m : List ((Nat × Nat) × Nat)} {toks : List Nat}
    {p : Nat × Nat} {i : Nat} (h : findBestPair m toks = some (p, i)) :
    p ∈ windows2 toks ∧ lookupKV m p = some i := by
  rcases findBest_mem m (windows2 toks) none p i h with h' | h'
  · cases h'
  · exact h'

/-- The rewrite-to-fixed-point loop of `encode`: repeatedly find the adjacent
pair with the lowest registered merged id and rewrite; stop when no adjacent
pair is registered.  Terminates because every rewrite strictly shortens the
sequence. -/
def encodeLoop (m : List ((Nat × Nat) × Nat)) (toks : List Nat) : List Nat :=
  match h : findBestPair m toks with
  | none => toks
  | some (p, i) => encodeLoop m (mergePass p.1 p.2 i toks)
termination_by toks.length
decreasing_by
  exact mergePass_length_lt p.1 p.2 i toks (findBestPair_mem h).1

/-- `encode` from `bpe.rs`: reject the input if any of its code points is not a
key of `id_to_token` (reporting the first offender), otherwise rewrite to a
fixed point. -/
def encode (v : Vocabulary) (input : List Nat) : Except EncodingError (List Nat) :=
  match input.find? (fun t => !(containsKV v.id_to_token t)) with
  | some t => Except.error (EncodingError.charNotInVocab t)
  | none => Except.ok (encodeLoop v.token_pair_to_id input)

/-- Validity of a code point for `char::from_u32`: a Unicode scalar value. -/
def isScalar (c : Nat) : Bool :=
  c < 0xD800 || (0xE000 ≤ c && c < 0x110000)

/-- The per-id expansion stack of `decode` (`decoding_stack`), with explicit
fuel standing in for the unbounded Rust `while let` loop: pop an id; a missing
id is an `UnknownToken` error, a `Lonely` id appends its (checked) code point,
a `Pair` id pushes `right` then `left` so that `left` is expanded first.
`none` models divergence (fuel exhausted). -/
def expandId (m : List (Nat × Token)) :
    Nat → List Nat → List Nat → Option (Except EncodingError (List Nat))
  | _, [], acc => some (Except.ok acc)
  | 0, _ :: _, _ => none
  | fuel + 1, i :: stack, acc =>
      match lookupKV m i with
      | none => some (Except.error (EncodingError.unknownToken i))
      | some (Token.lonely c) =>
          if isScalar c then expandId m fuel stack (acc ++ [c])
          else some (Except.error (EncodingError.invalidChar c))
      | some (Token.pair l r) => expandId m fuel (l :: r :: stack) acc

/-- The outer loop of `decode`: expand each input id in turn, accumulating the
decoded code points.  Each id is given fuel `2 ^ (i + 1)`, which is proved
sufficient (`expandId_isSome_of_decreasing`) for every table this program
builds, i.e. whenever `Pair` entries only reference strictly smaller ids. -/
def decodeGo (m : List (Nat × Token)) :
    List Nat → List Nat → Option (Except EncodingError (List Nat))
  | [], acc => some (Except.ok acc)
  | i :: rest, acc =>
      match expandId m (2 ^ (i + 1)) [i] acc with
      | none => none
      | some (Except.error e) => some (Except.error e)
      | some (Except.ok acc') => decodeGo m rest acc'

/-- `decode` from `bpe.rs`.  `some (.ok text)` models a successful decode,
`some (.error e)` a returned error, and `none` divergence of the Rust loop. -/
def decode (v : Vocabulary) (ids : List Nat) : Option (Except EncodingError (List Nat)) :=
  decodeGo v.id_to_token ids []

/-- Modelled from the spec (§4.2 step 3b tie-break rule), for comparison with
the code: among the adjacent pairs achieving the maximum frequency, the
reference policy orders candidates by `(left, right)` ascending and takes the
first, i.e. the lexicographically smallest such pair. -/
def pairLexLt (p q : Nat × Nat) : Bool :=
  p.1 < q.1 || (p.1 = q.1 && p.2 < q.2)

/-- Modelled from the spec: the pair the reference tie-break policy would
choose for the current tokenization (`none` when there are no adjacent
pairs). -/
def specSelect (toks : List Nat) : Option (Nat × Nat) :=
  let ws := windows2 toks
  let maxf := ws.foldl (fun m p => max m (ws.count p)) 0
  ws.foldl
    (fun best p =>
      if ws.count p = maxf then
        match best with
        | none => some p
        | some b => if pairLexLt p b then some p else some b
      else best)
    none

/-! ## Association-list lemmas -/

theorem lookupKV_insertKV {α β : Type} [DecidableEq α] :
    ∀ (m : List (α × β)) (k k' : α) (v : β),
      lookupKV (insertKV m k v) k' = if k = k' then some v else lookupKV m k'
  | [], k, k', v => by simp [insertKV, lookupKV]
  | (a, b) :: rest, k, k', v => by
      rw [insertKV]
      by_cases hak : a = k
      · subst hak
        by_cases hk' : a = k'
        · simp [lookupKV, hk']
        · simp [lookupKV, hk']
      · rw [if_neg hak]
        by_cases hk' : a = k'
        · subst hk'
          have hkk' : ¬ k = a := fun h => hak h.symm
          simp [lookupKV, hkk']
        · simp only [lookupKV, if_neg hk']
          exact lookupKV_insertKV rest k k' v

theorem mem_of_lookupKV {α β : Type} [DecidableEq α] :
    ∀ {m : List (α × β)} {k : α} {v : β}, lookupKV m k = some v → (k, v) ∈ m
  | [], k, v, h => by simp [lookupKV] at h
  | (a, b) :: rest, k, v, h => by
      rw [lookupKV] at h
      by_cases hak : a = k
      · subst hak
        rw [if_pos rfl] at h
        cases h
        exact List.mem_cons_self _ _
      · rw [if_neg hak] at h
        exact List.mem_cons_of_mem _ (mem_of_lookupKV h)

/-- Keys are pairwise distinct. -/
def UniqKeys {α β : Type} (m : List (α × β)) : Prop :=
  m.Pairwise (fun e e' => e.1 ≠ e'.1)

theorem lookupKV_of_mem {α β : Type} [DecidableEq α] :
    ∀ {m : List (α × β)}, UniqKeys m → ∀ {k : α} {v : β}, (k, v) ∈ m → lookupKV m k = some v
  | [], _, k, v, h => by simp at h
  | (a, b) :: rest, hu, k, v, h => by
      rw [List.mem_cons] at h
      rw [lookupKV]
      rcases h with h | h
      · cases h
        rw [if_pos rfl]
      · rw [UniqKeys, List.pairwise_cons] at hu
        have hak : a ≠ k := hu.1 (k, v) h
        rw [if_neg hak]
        exact lookupKV_of_mem hu.2 h

theorem insertKV_length {α β : Type} [DecidableEq α] :
    ∀ (m : List (α × β)) (k : α) (v : β),
      (insertKV m k v).length = if containsKV m k then m.length else m.length + 1
  | [], k, v => by simp [insertKV, containsKV, lookupKV]
  | (a, b) :: rest, k, v => by
      rw [insertKV]
      by_cases hak : a = k
      · subst hak
        simp [containsKV, lookupKV]
      · rw [if_neg hak]
        have := insertKV_length rest k v
        have hcc : containsKV ((a, b) :: rest) k = containsKV rest k := by
          simp [containsKV, lookupKV, hak]
        rw [hcc]
        by_cases hc : containsKV rest k
        · simp only [hc, if_true] at this ⊢
          simp [this]
        · simp only [hc, if_false] at this ⊢
          simp [this]

/-! ## `windows2` lemmas -/

theorem windows2_mem :
    ∀ {toks : List Nat} {p : Nat × Nat}, p ∈ windows2 toks → p.1 ∈ toks ∧ p.2 ∈ toks
  | [], p, h => by simp [windows2] at h
  | [a], p, h => by simp [windows2] at h
  | a :: b :: rest, p, h => by
      rw [windows2, List.mem_cons] at h
      rcases h with h | h
      · subst h
        exact ⟨List.mem_cons_self _ _, List.mem_cons_of_mem _ (List.mem_cons_self _ _)⟩
      · have := windows2_mem h
        exact ⟨List.mem_cons_of_mem _ this.1, List.mem_cons_of_mem _ this.2⟩

/-! ## `tally` lemmas -/

theorem lookupKV_bump :
    ∀ (acc : List ((Nat × Nat) × Nat)) (p q : Nat × Nat),
      lookupKV (bump acc p) q =
        if p = q then some ((lookupKV acc q).getD 0 + 1) else lookupKV acc q
  | [], p, q => by
      by_cases h : p = q
      · subst h; simp [bump, lookupKV]
      · simp [bump, lookupKV, h]
  | (a, n) :: rest, p, q => by
      rw [bump]
      by_cases hap : a = p
      · subst hap
        by_cases haq : a = q
        · subst haq; simp [lookupKV]
        · have : ¬ a = q := haq
          simp [lookupKV, this]
      · rw [if_neg hap]
        by_cases haq : a = q
        · subst haq
          have hpq : ¬ p = a := fun h => hap h.symm
          simp [lookupKV, hpq]
        · simp only [lookupKV, if_neg haq]
          exact lookupKV_bump rest p q

theorem bump_keys :
    ∀ (acc : List ((Nat × Nat) × Nat)) (p q : Nat × Nat) (g : Nat),
      (q, g) ∈ bump acc p → q = p ∨ ∃ g', (q, g') ∈ acc
  | [], p, q, g, h => by
      simp [bump] at h
      exact Or.inl h.1
  | (a, n) :: rest, p, q, g, h => by
      rw [bump] at h
      by_cases hap : a = p
      · subst hap
        rw [if_pos rfl, List.mem_cons] at h
        rcases h with h | h
        · cases h; exact Or.inl rfl
        · exact Or.inr ⟨g, List.mem_cons_of_mem _ h⟩
      · rw [if_neg hap, List.mem_cons] at h
        rcases h with h | h
        · cases h; exact Or.inr ⟨n, List.mem_cons_self _ _⟩
        · rcases bump_keys rest p q g h with h' | ⟨g', h'⟩
          · exact Or.inl h'
          · exact Or.inr ⟨g', List.mem_cons_of_mem _ h'⟩

theorem bump_uniqKeys :
    ∀ {acc : List ((Nat × Nat) × Nat)}, UniqKeys acc → ∀ (p : Nat × Nat), UniqKeys (bump acc p)
  | [], _, p => by simp [bump, UniqKeys]
  | (a, n) :: rest, hu, p => by
      rw [UniqKeys, List.pairwise_cons] at hu
      rw [bump]
      by_cases hap : a = p
      · subst hap
        rw [if_pos rfl, UniqKeys, List.pairwise_cons]
        exact hu
      · rw [if_neg hap, UniqKeys, List.pairwise_cons]
        constructor
        · intro e he
          rcases bump_keys rest p e.1 e.2 he with h | ⟨g', h'⟩
          · simpa [h] using hap
          · exact hu.1 (e.1, g') h'
        · exact bump_uniqKeys hu.2 p

theorem foldl_bump_lookup :
    ∀ (ws : List (Nat × Nat)) (acc : List ((Nat × Nat) × Nat)) (q : Nat × Nat),
      lookupKV (ws.foldl bump acc) q =
        if ws.count q = 0 then lookupKV acc q
        else some ((lookupKV acc q).getD 0 + ws.count q)
  | [], acc, q => by simp
  | w :: ws, acc, q => by
      rw [List.foldl_cons, foldl_bump_lookup ws (bump acc w) q, lookupKV_bump]
      by_cases hwq : w = q
      · subst hwq
        rw [if_pos rfl, List.count_cons_self]
        by_cases h0 : ws.count w = 0
        · simp [h0]
        · have h1 : ¬ (ws.count w + 1 = 0) := by omega
          rw [if_neg h0, if_neg h1]
          simp only [Option.getD_some]
          congr 1
          omega
      · have hqw : ¬ q = w := fun h => hwq h.symm
        have hcount : (w :: ws).count q = ws.count q := by
          simp [List.count_cons, hwq, hqw]
        rw [if_neg hwq, hcount]
  termination_by ws => ws.length

theorem tally_lookup (ws : List (Nat × Nat)) (q : Nat × Nat) :
    lookupKV (tally ws) q =
      if ws.count q = 0 then none else some (ws.count q) := by
  rw [tally, foldl_bump_lookup]
  by_cases h : ws.count q = 0
  · simp [h, lookupKV]
  · simp [h, lookupKV]

theorem tally_uniqKeys (ws : List (Nat × Nat)) : UniqKeys (tally ws) := by
  rw [tally]
  have : ∀ (l : List (Nat × Nat)) (acc : List ((Nat × Nat) × Nat)),
      UniqKeys acc → UniqKeys (l.foldl bump acc) := by
    intro l
    induction l with
    | nil => intro acc h; exact h
    | cons w ws ih => intro acc h; exact ih _ (bump_uniqKeys h w)
  exact this ws [] (by simp [UniqKeys])

/-! ## `maxByFreq` lemmas -/

theorem maxByFreq_eq_none :
    ∀ {l : List ((Nat × Nat) × Nat)}, maxByFreq l = none → l = []
  | [], _ => rfl
  | e :: rest, h => by
      rw [maxByFreq] at h
      split at h
      · exact Option.noConfusion h
      · split at h <;> exact Option.noConfusion h

/-- Decomposition of `max_by_key`'s result: the chosen entry is the last one in
iteration order achieving the maximum count. -/
theorem maxByFreq_split :
    ∀ {l : List ((Nat × Nat) × Nat)} {e : (Nat × Nat) × Nat}, maxByFreq l = some e →
      ∃ l1 l2, l = l1 ++ e :: l2 ∧ (∀ x ∈ l1, x.2 ≤ e.2) ∧ (∀ x ∈ l2, x.2 < e.2)
  | [], e, h => by simp [maxByFreq] at h
  | a :: rest, e, h => by
      rw [maxByFreq] at h
      split at h
      · rename_i heq
        cases h
        have : rest = [] := maxByFreq_eq_none heq
        subst this
        exact ⟨[], [], rfl, by simp, by simp⟩
      · rename_i b heq
        obtain ⟨l1, l2, hsplit, hle, hlt⟩ := maxByFreq_split heq
        split at h
        · rename_i hb
          have he : b = e := Option.some.inj h
          subst he
          refine ⟨a :: l1, l2, by simp [hsplit], ?_, hlt⟩
          intro x hx
          rcases List.mem_cons.1 hx with hx | hx
          · subst hx; exact hb
          · exact hle x hx
        · rename_i hb
          have he : a = e := Option.some.inj h
          subst he
          refine ⟨[], rest, rfl, by simp, ?_⟩
          intro x hx
          rw [hsplit] at hx
          have hba : b.2 < a.2 := by omega
          rcases List.mem_append.1 hx with hx | hx
          · exact lt_of_le_of_lt (hle x hx) hba
          · rcases List.mem_cons.1 hx with hx | hx
            · subst hx; exact hba
            · exact lt_trans (hlt x hx) hba

/-! ## `mergePass` structural lemmas -/

/-- Two-step list induction matching the recursion pattern of `mergePass`. -/
theorem twoStepInd {P : List Nat → Prop} (h0 : P []) (h1 : ∀ a, P [a])
    (h2 : ∀ a b rest, P rest → P (b :: rest) → P (a :: b :: rest)) : ∀ toks, P toks
  | [] => h0
  | [a] => h1 a
  | a :: b :: rest => h2 a b rest (twoStepInd h0 h1 h2 rest) (twoStepInd h0 h1 h2 (b :: rest))

theorem mergePass_mem {l r id : Nat} :
    ∀ {toks t : _}, t ∈ mergePass l r id toks → t = id ∨ t ∈ toks := by
  intro toks
  induction toks using twoStepInd with
  | h0 => intro t h; simp [mergePass] at h
  | h1 a => intro t h; simp [mergePass] at h; simp [h]
  | h2 a b rest ih1 ih2 =>
      intro t h
      rw [mergePass] at h
      by_cases hab : a = l ∧ b = r
      · rw [if_pos hab] at h
        rcases List.mem_cons.1 h with h | h
        · exact Or.inl h
        · rcases ih1 h with h | h
          · exact Or.inl h
          · exact Or.inr (by simp [h])
      · rw [if_neg hab] at h
        rcases List.mem_cons.1 h with h | h
        · exact Or.inr (by simp [h])
        · rcases ih2 h with h | h
          · exact Or.inl h
          · exact Or.inr (by simp [List.mem_cons.1 h])

/-- The head of a rewrite of a non-empty list is either the fresh id or the
original head. -/
theorem mergePass_head (l r id : Nat) :
    ∀ (a : Nat) (rest : List Nat),
      ∃ t, mergePass l r id (a :: rest) = id :: t ∨ mergePass l r id (a :: rest) = a :: t
  | a, [] => ⟨[], Or.inr rfl⟩
  | a, b :: rest => by
      rw [mergePass]
      by_cases hab : a = l ∧ b = r
      · rw [if_pos hab]
        exact ⟨mergePass l r id rest, Or.inl rfl⟩
      · rw [if_neg hab]
        exact ⟨mergePass l r id (b :: rest), Or.inr rfl⟩

theorem windows2_cons_subset (y : Nat) :
    ∀ {xs : List Nat} {p : Nat × Nat}, p ∈ windows2 xs → p ∈ windows2 (y :: xs) := by
  intro xs p h
  cases xs with
  | nil => simp [windows2] at h
  | cons x xs' =>
      rw [show windows2 (y :: x :: xs') = (y, x) :: windows2 (x :: xs') from rfl]
      exact List.mem_cons_of_mem _ h

/-- Every adjacent pair of a rewritten sequence either involves the fresh id or
was already an adjacent pair of the original sequence. -/
theorem windows2_mergePass {l r id : Nat} :
    ∀ {toks : List Nat} {p : Nat × Nat}, p ∈ windows2 (mergePass l r id toks) →
      p.1 = id ∨ p.2 = id ∨ p ∈ windows2 toks := by
  intro toks
  induction toks using twoStepInd with
  | h0 => intro p h; simp [mergePass, windows2] at h
  | h1 a => intro p h; simp [mergePass, windows2] at h
  | h2 a b rest ih1 ih2 =>
      intro p h
      rw [mergePass] at h
      by_cases hab : a = l ∧ b = r
      · rw [if_pos hab] at h
        cases hM : mergePass l r id rest with
        | nil => rw [hM] at h; simp [windows2] at h
        | cons c t =>
            rw [hM] at h
            rw [show windows2 (id :: c :: t) = (id, c) :: windows2 (c :: t) from rfl] at h
            rcases List.mem_cons.1 h with h | h
            · subst h; exact Or.inl rfl
            · rw [← hM] at h
              rcases ih1 h with h | h | h
              · exact Or.inl h
              · exact Or.inr (Or.inl h)
              · exact Or.inr (Or.inr (windows2_cons_subset a (windows2_cons_subset b h)))
      · rw [if_neg hab] at h
        obtain ⟨t, ht | ht⟩ := mergePass_head l r id b rest
        · rw [ht] at h
          rw [show windows2 (a :: id :: t) = (a, id) :: windows2 (id :: t) from rfl] at h
          rcases List.mem_cons.1 h with h | h
          · subst h; exact Or.inr (Or.inl rfl)
          · rw [show (id :: t) = mergePass l r id (b :: rest) from ht.symm] at h
            rcases ih2 h with h | h | h
            · exact Or.inl h
            · exact Or.inr (Or.inl h)
            · exact Or.inr (Or.inr (windows2_cons_subset a h))
        · rw [ht] at h
          rw [show windows2 (a :: b :: t) = (a, b) :: windows2 (b :: t) from rfl] at h
          rcases List.mem_cons.1 h with h | h
          · subst h
            exact Or.inr (Or.inr (List.mem_cons_self _ _))
          · rw [show (b :: t) = mergePass l r id (b :: rest) from ht.symm] at h
            rcases ih2 h with h | h | h
            · exact Or.inl h
            · exact Or.inr (Or.inl h)
            · exact Or.inr (Or.inr (windows2_cons_subset a h))

/-- A rewrite eliminates every adjacent occurrence of its own pair, provided
the fresh id differs from both components. -/
theorem mergePass_no_self {l r id : Nat} (hl : id ≠ l) (hr : id ≠ r) :
    ∀ toks, (l, r) ∉ windows2 (mergePass l r id toks) := by
  intro toks
  induction toks using twoStepInd with
  | h0 => simp [mergePass, windows2]
  | h1 a => simp [mergePass, windows2]
  | h2 a b rest ih1 ih2 =>
      intro h
      rw [mergePass] at h
      by_cases hab : a = l ∧ b = r
      · rw [if_pos hab] at h
        cases hM : mergePass l r id rest with
        | nil => rw [hM] at h; simp [windows2] at h
        | cons c t =>
            rw [hM] at h
            rw [show windows2 (id :: c :: t) = (id, c) :: windows2 (c :: t) from rfl] at h
            rcases List.mem_cons.1 h with h | h
            · exact hl (congrArg Prod.fst h).symm
            · rw [← hM] at h
              exact ih1 h
      · rw [if_neg hab] at h
        obtain ⟨t, ht | ht⟩ := mergePass_head l r id b rest
        · rw [ht] at h
          rw [show windows2 (a :: id :: t) = (a, id) :: windows2 (id :: t) from rfl] at h
          rcases List.mem_cons.1 h with h | h
          · exact hr (congrArg Prod.snd h).symm
          · rw [show (id :: t) = mergePass l r id (b :: rest) from ht.symm] at h
            exact ih2 h
        · rw [ht] at h
          rw [show windows2 (a :: b :: t) = (a, b) :: windows2 (b :: t) from rfl] at h
          rcases List.mem_cons.1 h with h | h
          · exact hab ⟨(congrArg Prod.fst h).symm, (congrArg Prod.snd h).symm⟩
          · rw [show (b :: t) = mergePass l r id (b :: rest) from ht.symm] at h
            exact ih2 h

/-- A pair absent from the sequence and not involving the fresh id stays
absent after a rewrite. -/
theorem mergePass_no_new {l r id : Nat} {p : Nat × Nat} {toks : List Nat}
    (h : p ∉ windows2 toks) (h1 : p.1 ≠ id) (h2 : p.2 ≠ id) :
    p ∉ windows2 (mergePass l r id toks) := by
  intro hmem
  rcases windows2_mergePass hmem with hc | hc | hc
  · exact h1 hc
  · exact h2 hc
  · exact h hc

/-! ## `findBest` lemmas -/

theorem findBest_isSome_of_best (m : List ((Nat × Nat) × Nat)) :
    ∀ (ws : List (Nat × Nat)) (best : Option ((Nat × Nat) × Nat)),
      best.isSome → (findBest m ws best).isSome
  | [], best, h => h
  | w :: ws, best, h => by
      rw [findBest]
      cases hw : lookupKV m w with
      | none => exact findBest_isSome_of_best m ws best h
      | some j =>
          cases best with
          | none => cases h
          | some b =>
              obtain ⟨bp, bi⟩ := b
              exact findBest_isSome_of_best m ws _ rfl

theorem findBest_isSome_of_mem (m : List ((Nat × Nat) × Nat)) :
    ∀ (ws : List (Nat × Nat)) (best : Option ((Nat × Nat) × Nat)) (q : Nat × Nat),
      q ∈ ws → (lookupKV m q).isSome → (findBest m ws best).isSome
  | [], best, q, hq, _ => by simp at hq
  | w :: ws, best, q, hq, hl => by
      rw [findBest]
      rcases List.mem_cons.1 hq with hq | hq
      · subst hq
        cases hw : lookupKV m q with
        | none => rw [hw] at hl; cases hl
        | some j =>
            cases best with
            | none => exact findBest_isSome_of_best m ws _ rfl
            | some b =>
                obtain ⟨bp, bi⟩ := b
                exact findBest_isSome_of_best m ws _ rfl
      · cases hw : lookupKV m w with
        | none => exact findBest_isSome_of_mem m ws best q hq hl
        | some j =>
            cases best with
            | none => exact findBest_isSome_of_mem m ws _ q hq hl
            | some b =>
                obtain ⟨bp, bi⟩ := b
                exact findBest_isSome_of_mem m ws _ q hq hl

theorem findBest_min (m : List ((Nat × Nat) × Nat)) :
    ∀ (ws : List (Nat × Nat)) (best : Option ((Nat × Nat) × Nat)) (p : Nat × Nat) (i : Nat),
      findBest m ws best = some (p, i) →
        (∀ b, best = some b → i ≤ b.2) ∧
        (∀ q j, q ∈ ws → lookupKV m q = some j → i ≤ j)
  | [], best, p, i, h => by
      constructor
      · intro b hb
        rw [hb] at h
        cases h
        exact Nat.le_refl _
      · intro q j hq
        simp at hq
  | w :: ws, best, p, i, h => by
      rw [findBest] at h
      cases hw : lookupKV m w with
      | none =>
          rw [hw] at h
          obtain ⟨c1, c2⟩ := findBest_min m ws best p i h
          refine ⟨c1, ?_⟩
          intro q j hq hj
          rcases List.mem_cons.1 hq with hq | hq
          · subst hq; rw [hw] at hj; cases hj
          · exact c2 q j hq hj
      | some c =>
          rw [hw] at h
          cases best with
          | none =>
              obtain ⟨c1, c2⟩ := findBest_min m ws (some (w, c)) p i h
              have hic : i ≤ c := c1 (w, c) rfl
              refine ⟨?_, ?_⟩
              · intro b hb
                cases hb
              intro q j hq hj
              rcases List.mem_cons.1 hq with hq | hq
              · subst hq
                rw [hw] at hj
                cases hj
                exact hic
              · exact c2 q j hq hj
          | some b =>
              obtain ⟨bp, bi⟩ := b
              obtain ⟨c1, c2⟩ := findBest_min m ws _ p i h
              have hkey : i ≤ (if c < bi then (w, c) else (bp, bi)).2 := c1 _ rfl
              by_cases hc : c < bi
              · rw [if_pos hc] at hkey
                refine ⟨?_, ?_⟩
                · intro b hb
                  cases hb
                  exact Nat.le_trans hkey (Nat.le_of_lt hc)
                · intro q j hq hj
                  rcases List.mem_cons.1 hq with hq | hq
                  · subst hq
                    rw [hw] at hj
                    cases hj
                    exact hkey
                  · exact c2 q j hq hj
              · rw [if_neg hc] at hkey
                refine ⟨?_, ?_⟩
                · intro b hb
                  cases hb
                  exact hkey
                · intro q j hq hj
                  rcases List.mem_cons.1 hq with hq | hq
                  · subst hq
                    rw [hw] at hj
                    cases hj
                    exact Nat.le_trans hkey (Nat.le_of_not_lt hc)
                  · exact c2 q j hq hj

theorem findBest_of_allNone (m : List ((Nat × Nat) × Nat)) :
    ∀ (ws : List (Nat × Nat)) (best : Option ((Nat × Nat) × Nat)),
      (∀ q ∈ ws, lookupKV m q = none) → findBest m ws best = best
  | [], best, _ => rfl
  | w :: ws, best, h => by
      rw [findBest]
      rw [h w (List.mem_cons_self _ _)]
      exact findBest_of_allNone m ws best (fun q hq => h q (List.mem_cons_of_mem _ hq))

theorem findBestPair_min {m : List ((Nat × Nat) × Nat)} {toks : List Nat}
    {p : Nat × Nat} {i : Nat} (h : findBestPair m toks = some (p, i)) :
    ∀ q j, q ∈ windows2 toks → lookupKV m q = some j → i ≤ j :=
  (findBest_min m (windows2 toks) none p i h).2

theorem findBestPair_of_allNone {m : List ((Nat × Nat) × Nat)} {toks : List Nat}
    (h : ∀ q ∈ windows2 toks, lookupKV m q = none) : findBestPair m toks = none :=
  findBest_of_allNone m (windows2 toks) none h

theorem findBestPair_isSome {m : List ((Nat × Nat) × Nat)} {toks : List Nat}
    {q : Nat × Nat} (hq : q ∈ windows2 toks) (hl : (lookupKV m q).isSome) :
    (findBestPair m toks).isSome :=
  findBest_isSome_of_mem m (windows2 toks) none q hq hl

/-! ## `encodeLoop` lemmas -/

theorem encodeLoop_of_none {m : List ((Nat × Nat) × Nat)} {toks : List Nat}
    (h : findBestPair m toks = none) : encodeLoop m toks = toks := by
  rw [encodeLoop]
  split
  · rfl
  · rename_i p i heq
    rw [h] at heq
    cases heq

theorem encodeLoop_of_some {m : List ((Nat × Nat) × Nat)} {toks : List Nat}
    {p : Nat × Nat} {i : Nat} (h : findBestPair m toks = some (p, i)) :
    encodeLoop m toks = encodeLoop m (mergePass p.1 p.2 i toks) := by
  rw [encodeLoop]
  split
  · rename_i heq
    rw [h] at heq
    cases heq
  · rename_i p' i' heq
    rw [h] at heq
    cases heq
    rfl

theorem encodeLoop_length_le (m : List ((Nat × Nat) × Nat)) :
    ∀ (n : Nat) (toks : List Nat), toks.length ≤ n → (encodeLoop m toks).length ≤ toks.length := by
  intro n
  induction n with
  | zero =>
      intro toks h
      have : toks = [] := List.length_eq_zero.1 (Nat.le_zero.1 h)
      subst this
      have : findBestPair m [] = none := rfl
      rw [encodeLoop_of_none this]
  | succ n ih =>
      intro toks h
      cases hb : findBestPair m toks with
      | none => rw [encodeLoop_of_none hb]
      | some e =>
          obtain ⟨p, i⟩ := e
          rw [encodeLoop_of_some hb]
          have hlt := mergePass_length_lt p.1 p.2 i toks (findBestPair_mem hb).1
          have := ih (mergePass p.1 p.2 i toks) (by omega)
          omega

/-- The encode loop stops exactly when no adjacent pair of the sequence has a
registered merge. -/
theorem encodeLoop_fixpoint_iff (m : List ((Nat × Nat) × Nat)) (toks : List Nat) :
    encodeLoop m toks = toks ↔ ∀ q ∈ windows2 toks, lookupKV m q = none := by
  constructor
  · intro h
    by_contra hq
    push_neg at hq
    obtain ⟨q, hqmem, hqlook⟩ := hq
    have hqs : (lookupKV m q).isSome := Option.ne_none_iff_isSome.1 hqlook
    have := findBestPair_isSome hqmem hqs
    obtain ⟨e, he⟩ := Option.isSome_iff_exists.1 this
    obtain ⟨p, i⟩ := e
    rw [encodeLoop_of_some he] at h
    have hlt := mergePass_length_lt p.1 p.2 i toks (findBestPair_mem he).1
    have hle := encodeLoop_length_le m (mergePass p.1 p.2 i toks).length
      (mergePass p.1 p.2 i toks) (Nat.le_refl _)
    have := congrArg List.length h
    omega
  · intro h
    exact encodeLoop_of_none (findBestPair_of_allNone h)

/-! ## `expandId` lemmas -/

theorem expandId_nil (m : List (Nat × Token)) (f : Nat) (acc : List Nat) :
    expandId m f [] acc = some (Except.ok acc) := by
  cases f <;> rfl

theorem expandId_zero_cons (m : List (Nat × Token)) (i : Nat) (s acc : List Nat) :
    expandId m 0 (i :: s) acc = none := rfl

theorem expandId_succ (m : List (Nat × Token)) (f i : Nat) (s acc : List Nat) :
    expandId m (f + 1) (i :: s) acc =
      match lookupKV m i with
      | none => some (Except.error (EncodingError.unknownToken i))
      | some (Token.lonely c) =>
          if isScalar c then expandId m f s (acc ++ [c])
          else some (Except.error (EncodingError.invalidChar c))
      | some (Token.pair l r) => expandId m f (l :: r :: s) acc := rfl

theorem expandId_succ_none {m : List (Nat × Token)} {i : Nat}
    (hl : lookupKV m i = none) (f : Nat) (s acc : List Nat) :
    expandId m (f + 1) (i :: s) acc = some (Except.error (EncodingError.unknownToken i)) := by
  rw [expandId_succ, hl]

theorem expandId_succ_lonely {m : List (Nat × Token)} {i c : Nat}
    (hl : lookupKV m i = some (Token.lonely c)) (f : Nat) (s acc : List Nat) :
    expandId m (f + 1) (i :: s) acc =
      if isScalar c then expandId m f s (acc ++ [c])
      else some (Except.error (EncodingError.invalidChar c)) := by
  rw [expandId_succ, hl]

theorem expandId_succ_pair {m : List (Nat × Token)} {i l r : Nat}
    (hl : lookupKV m i = some (Token.pair l r)) (f : Nat) (s acc : List Nat) :
    expandId m (f + 1) (i :: s) acc = expandId m f (l :: r :: s) acc := by
  rw [expandId_succ, hl]

theorem expandId_mono (m : List (Nat × Token)) :
    ∀ (f f' : Nat) (s acc : List Nat) (r : Except EncodingError (List Nat)),
      f ≤ f' → expandId m f s acc = some r → expandId m f' s acc = some r := by
  intro f
  induction f with
  | zero =>
      intro f' s acc r hle h
      cases s with
      | nil => rw [expandId_nil] at h; rw [expandId_nil]; exact h
      | cons i s' => rw [expandId_zero_cons] at h; cases h
  | succ g ih =>
      intro f' s acc r hle h
      cases s with
      | nil => rw [expandId_nil] at h; rw [expandId_nil]; exact h
      | cons i s' =>
          cases f' with
          | zero => omega
          | succ g' =>
              have hgg : g ≤ g' := by omega
              cases hl : lookupKV m i with
              | none =>
                  rw [expandId_succ_none hl] at h
                  rw [expandId_succ_none hl]
                  exact h
              | some t =>
                  cases t with
                  | lonely c =>
                      rw [expandId_succ_lonely hl] at h
                      rw [expandId_succ_lonely hl]
                      by_cases hs : isScalar c
                      · rw [if_pos hs] at h ⊢
                        exact ih g' s' (acc ++ [c]) r hgg h
                      · rw [if_neg hs] at h ⊢
                        exact h
                  | pair l r' =>
                      rw [expandId_succ_pair hl] at h
                      rw [expandId_succ_pair hl]
                      exact ih g' (l :: r' :: s') acc r hgg h

theorem expandId_det {m : List (Nat × Token)} {f f' : Nat} {s acc : List Nat}
    {r r' : Except EncodingError (List Nat)}
    (h : expandId m f s acc = some r) (h' : expandId m f' s acc = some r') : r = r' := by
  rcases Nat.le_total f f' with hle | hle
  · have := expandId_mono m f f' s acc r hle h
    rw [this] at h'
    exact Option.some.inj h'
  · have := expandId_mono m f' f s acc r' hle h'
    rw [this] at h
    exact (Option.some.inj h).symm

theorem expandId_append (m : List (Nat × Token)) :
    ∀ (f1 : Nat) (s1 acc a1 : List Nat),
      expandId m f1 s1 acc = some (Except.ok a1) →
      ∀ (f2 : Nat) (s2 : List Nat) (r : Except EncodingError (List Nat)),
        expandId m f2 s2 a1 = some r →
        expandId m (f1 + f2) (s1 ++ s2) acc = some r := by
  intro f1
  induction f1 with
  | zero =>
      intro s1 acc a1 h1 f2 s2 r h2
      cases s1 with
      | nil =>
          rw [expandId_nil] at h1
          cases h1
          rw [List.nil_append, Nat.zero_add]
          exact h2
      | cons i s' => rw [expandId_zero_cons] at h1; cases h1
  | succ g ih =>
      intro s1 acc a1 h1 f2 s2 r h2
      cases s1 with
      | nil =>
          rw [expandId_nil] at h1
          cases h1
          rw [List.nil_append]
          exact expandId_mono m f2 (g + 1 + f2) s2 acc r (by omega) h2
      | cons i s' =>
          have hfuel : g + 1 + f2 = (g + f2) + 1 := by omega
          rw [hfuel, List.cons_append]
          cases hl : lookupKV m i with
          | none =>
              rw [expandId_succ_none hl] at h1
              cases h1
          | some t =>
              cases t with
              | lonely c =>
                  rw [expandId_succ_lonely hl] at h1
                  rw [expandId_succ_lonely hl]
                  by_cases hs : isScalar c
                  · rw [if_pos hs] at h1 ⊢
                    exact ih s' (acc ++ [c]) a1 h1 f2 s2 r h2
                  · rw [if_neg hs] at h1
                    cases h1
              | pair l r' =>
                  rw [expandId_succ_pair hl] at h1
                  rw [expandId_succ_pair hl]
                  exact ih (l :: r' :: s') acc a1 h1 f2 s2 r h2

theorem expandId_split (m : List (Nat × Token)) :
    ∀ (f : Nat) (s1 s2 acc r : List Nat),
      expandId m f (s1 ++ s2) acc = some (Except.ok r) →
      ∃ f1 a1, expandId m f1 s1 acc = some (Except.ok a1) ∧
        ∃ f2, expandId m f2 s2 a1 = some (Except.ok r) := by
  intro f
  induction f with
  | zero =>
      intro s1 s2 acc r h
      cases s1 with
      | nil =>
          exact ⟨0, acc, expandId_nil m 0 acc, 0, by rw [List.nil_append] at h; exact h⟩
      | cons i s' => rw [List.cons_append, expandId_zero_cons] at h; cases h
  | succ g ih =>
      intro s1 s2 acc r h
      cases s1 with
      | nil =>
          exact ⟨0, acc, expandId_nil m 0 acc, g + 1, by rw [List.nil_append] at h; exact h⟩
      | cons i s' =>
          rw [List.cons_append] at h
          cases hl : lookupKV m i with
          | none => rw [expandId_succ_none hl] at h; cases h
          | some t =>
              cases t with
              | lonely c =>
                  rw [expandId_succ_lonely hl] at h
                  by_cases hs : isScalar c
                  · rw [if_pos hs] at h
                    obtain ⟨f1, a1, h1, f2, h2⟩ := ih s' s2 (acc ++ [c]) r h
                    refine ⟨f1 + 1, a1, ?_, f2, h2⟩
                    rw [expandId_succ_lonely hl, if_pos hs]
                    exact h1
                  · rw [if_neg hs] at h
                    cases h
              | pair l r' =>
                  rw [expandId_succ_pair hl] at h
                  obtain ⟨f1, a1, h1, f2, h2⟩ := ih (l :: r' :: s') s2 acc r h
                  refine ⟨f1 + 1, a1, ?_, f2, h2⟩
                  rw [expandId_succ_pair hl]
                  exact h1

theorem expandId_shift (m : List (Nat × Token)) :
    ∀ (f : Nat) (s acc r : List Nat),
      expandId m f s acc = some (Except.ok r) →
      ∃ out, r = acc ++ out ∧
        ∀ acc', expandId m f s acc' = some (Except.ok (acc' ++ out)) := by
  intro f
  induction f with
  | zero =>
      intro s acc r h
      cases s with
      | nil =>
          rw [expandId_nil] at h
          cases h
          exact ⟨[], by simp, fun acc' => by rw [expandId_nil]; simp⟩
      | cons i s' => rw [expandId_zero_cons] at h; cases h
  | succ g ih =>
      intro s acc r h
      cases s with
      | nil =>
          rw [expandId_nil] at h
          cases h
          exact ⟨[], by simp, fun acc' => by rw [expandId_nil]; simp⟩
      | cons i s' =>
          cases hl : lookupKV m i with
          | none => rw [expandId_succ_none hl] at h; cases h
          | some t =>
              cases t with
              | lonely c =>
                  rw [expandId_succ_lonely hl] at h
                  by_cases hs : isScalar c
                  · rw [if_pos hs] at h
                    obtain ⟨out, hout, hall⟩ := ih s' (acc ++ [c]) r h
                    refine ⟨c :: out, by rw [hout]; simp, ?_⟩
                    intro acc'
                    rw [expandId_succ_lonely hl, if_pos hs, hall (acc' ++ [c])]
                    simp
                  · rw [if_neg hs] at h
                    cases h
              | pair l r' =>
                  rw [expandId_succ_pair hl] at h
                  obtain ⟨out, hout, hall⟩ := ih (l :: r' :: s') acc r h
                  refine ⟨out, hout, ?_⟩
                  intro acc'
                  rw [expandId_succ_pair hl]
                  exact hall acc'

/-- Total fuel needed to fully expand a stack whose `Pair` entries reference
strictly smaller ids. -/
def stackW : List Nat → Nat
  | [] => 0
  | i :: s => (2 ^ (i + 1) - 1) + stackW s

/-- A table is *decreasing* when every `Pair` entry references only strictly
smaller ids.  `Vocabulary::learn` only ever builds such tables. -/
def Decreasing (m : List (Nat × Token)) : Prop :=
  ∀ i l r, lookupKV m i = some (Token.pair l r) → l < i ∧ r < i

theorem two_le_two_pow (i : Nat) : 2 ≤ 2 ^ (i + 1) := by
  calc 2 = 2 ^ 1 := by norm_num
  _ ≤ 2 ^ (i + 1) := Nat.pow_le_pow_right (by norm_num) (by omega)

theorem expandId_isSome_of_decreasing {m : List (Nat × Token)} (hdec : Decreasing m) :
    ∀ (f : Nat) (s acc : List Nat), stackW s ≤ f → (expandId m f s acc).isSome = true := by
  intro f
  induction f with
  | zero =>
      intro s acc hw
      cases s with
      | nil => rw [expandId_nil]; rfl
      | cons i s' =>
          rw [stackW] at hw
          have := two_le_two_pow i
          omega
  | succ g ih =>
      intro s acc hw
      cases s with
      | nil => rw [expandId_nil]; rfl
      | cons i s' =>
          rw [stackW] at hw
          cases hl : lookupKV m i with
          | none => rw [expandId_succ_none hl]; rfl
          | some t =>
              cases t with
              | lonely c =>
                  rw [expandId_succ_lonely hl]
                  by_cases hs : isScalar c
                  · rw [if_pos hs]
                    have h2 := two_le_two_pow i
                    exact ih s' (acc ++ [c]) (by omega)
                  · rw [if_neg hs]; rfl
              | pair l r =>
                  rw [expandId_succ_pair hl]
                  obtain ⟨hli, hri⟩ := hdec i l r hl
                  have hl2 : 2 ^ (l + 1) ≤ 2 ^ i := Nat.pow_le_pow_right (by norm_num) (by omega)
                  have hr2 : 2 ^ (r + 1) ≤ 2 ^ i := Nat.pow_le_pow_right (by norm_num) (by omega)
                  have hi2 : 2 ^ (i + 1) = 2 * 2 ^ i := by rw [Nat.pow_succ]; ring
                  have h2 := two_le_two_pow i
                  apply ih (l :: r :: s') acc
                  rw [stackW, stackW]
                  have h2l := two_le_two_pow l
                  have h2r := two_le_two_pow r
                  omega

/-! ## `decodeGo` lemmas -/

theorem decodeGo_nil (m : List (Nat × Token)) (acc : List Nat) :
    decodeGo m [] acc = some (Except.ok acc) := rfl

theorem decodeGo_cons (m : List (Nat × Token)) (i : Nat) (rest acc : List Nat) :
    decodeGo m (i :: rest) acc =
      match expandId m (2 ^ (i + 1)) [i] acc with
      | none => none
      | some (Except.error e) => some (Except.error e)
      | some (Except.ok acc') => decodeGo m rest acc' := rfl

theorem decodeGo_isSome {m : List (Nat × Token)} (hdec : Decreasing m) :
    ∀ (ids acc : List Nat), (decodeGo m ids acc).isSome = true := by
  intro ids
  induction ids with
  | nil => intro acc; rw [decodeGo_nil]; rfl
  | cons i rest ih =>
      intro acc
      rw [decodeGo_cons]
      have hW : stackW [i] ≤ 2 ^ (i + 1) := by
        rw [stackW, stackW]
        have h2 := two_le_two_pow i
        omega
      have := expandId_isSome_of_decreasing hdec (2 ^ (i + 1)) [i] acc hW
      cases hx : expandId m (2 ^ (i + 1)) [i] acc with
      | none => rw [hx] at this; cases this
      | some r =>
          cases r with
          | error e => rfl
          | ok acc' => exact ih acc'

theorem decodeGo_ok_of_expands {m : List (Nat × Token)} (hdec : Decreasing m) :
    ∀ (s acc r : List Nat), (∃ f, expandId m f s acc = some (Except.ok r)) →
      decodeGo m s acc = some (Except.ok r) := by
  intro s
  induction s with
  | nil =>
      intro acc r h
      obtain ⟨f, hf⟩ := h
      rw [expandId_nil] at hf
      cases hf
      exact decodeGo_nil m acc
  | cons i rest ih =>
      intro acc r h
      obtain ⟨f, hf⟩ := h
      obtain ⟨f1, a1, h1, f2, h2⟩ :=
        expandId_split m f [i] rest acc r (by rw [List.singleton_append]; exact hf)
      rw [decodeGo_cons]
      have hW : stackW [i] ≤ 2 ^ (i + 1) := by
        rw [stackW, stackW]
        have h2 := two_le_two_pow i
        omega
      have hsome := expandId_isSome_of_decreasing hdec (2 ^ (i + 1)) [i] acc hW
      cases hx : expandId m (2 ^ (i + 1)) [i] acc with
      | none => rw [hx] at hsome; cases hsome
      | some x =>
          have hxa : x = Except.ok a1 := expandId_det hx h1
          subst hxa
          exact ih a1 r ⟨f2, h2⟩

/-- Expanding a stack of self-coded scalar atoms appends exactly that stack. -/
theorem expandId_atoms {m : List (Nat × Token)} :
    ∀ (s acc : List Nat), (∀ c ∈ s, lookupKV m c = some (Token.lonely c)) →
      (∀ c ∈ s, isScalar c = true) →
      ∃ f, expandId m f s acc = some (Except.ok (acc ++ s)) := by
  intro s
  induction s with
  | nil => intro acc _ _; exact ⟨0, by rw [expandId_nil]; simp⟩
  | cons c s' ih =>
      intro acc hatom hscalar
      obtain ⟨f, hf⟩ := ih (acc ++ [c])
        (fun x hx => hatom x (List.mem_cons_of_mem _ hx))
        (fun x hx => hscalar x (List.mem_cons_of_mem _ hx))
      refine ⟨f + 1, ?_⟩
      rw [expandId_succ_lonely (hatom c (List.mem_cons_self _ _)),
        if_pos (hscalar c (List.mem_cons_self _ _)), hf]
      simp

/-- Rewriting a registered pair into its merged id does not change the
expansion of the sequence. -/
theorem expandId_mergePass {m : List (Nat × Token)} {l r id : Nat}
    (hpair : lookupKV m id = some (Token.pair l r)) :
    ∀ (toks : List Nat), (∀ acc rr, (∃ f, expandId m f toks acc = some (Except.ok rr)) →
      ∃ f, expandId m f (mergePass l r id toks) acc = some (Except.ok rr)) := by
  intro toks
  induction toks using twoStepInd with
  | h0 => intro acc rr h; exact h
  | h1 a => intro acc rr h; exact h
  | h2 a b rest ih1 ih2 =>
      intro acc rr h
      rw [mergePass]
      by_cases hab : a = l ∧ b = r
      · obtain ⟨hal, hbr⟩ := hab
        subst hal
        subst hbr
        rw [if_pos ⟨rfl, rfl⟩]
        obtain ⟨f, hf⟩ := h
        obtain ⟨f1, a1, h1, f2, h2⟩ :=
          expandId_split m f [a] (b :: rest) acc rr (by rw [List.singleton_append]; exact hf)
        obtain ⟨f3, a2, h3, f4, h4⟩ :=
          expandId_split m f2 [b] rest a1 rr (by rw [List.singleton_append]; exact h2)
        have hlr : expandId m (f1 + f3) [a, b] acc = some (Except.ok a2) :=
          expandId_append m f1 [a] acc a1 h1 f3 [b] (Except.ok a2) h3
        have hid : expandId m (f1 + f3 + 1) [id] acc = some (Except.ok a2) := by
          rw [expandId_succ, hpair]
          exact hlr
        obtain ⟨f5, h5⟩ := ih1 a2 rr ⟨f4, h4⟩
        exact ⟨f1 + f3 + 1 + f5,
          expandId_append m (f1 + f3 + 1) [id] acc a2 hid f5 _ (Except.ok rr) h5⟩
      · rw [if_neg hab]
        obtain ⟨f, hf⟩ := h
        obtain ⟨f1, a1, h1, f2, h2⟩ :=
          expandId_split m f [a] (b :: rest) acc rr (by rw [List.singleton_append]; exact hf)
        obtain ⟨f3, h3⟩ := ih2 a1 rr ⟨f2, h2⟩
        exact ⟨f1 + f3, expandId_append m f1 [a] acc a1 h1 f3 _ (Except.ok rr) h3⟩

/-- The encode loop preserves the expansion semantics of the sequence whenever
the pair map is consistent with the token map. -/
theorem encodeLoop_preserves_expands {m : List (Nat × Token)} {pm : List ((Nat × Nat) × Nat)}
    (hcons : ∀ p i, lookupKV pm p = some i → lookupKV m i = some (Token.pair p.1 p.2)) :
    ∀ (n : Nat) (toks : List Nat), toks.length ≤ n →
      ∀ acc rr, (∃ f, expandId m f toks acc = some (Except.ok rr)) →
        ∃ f, expandId m f (encodeLoop pm toks) acc = some (Except.ok rr) := by
  intro n
  induction n with
  | zero =>
      intro toks hlen acc rr h
      have : toks = [] := List.length_eq_zero.1 (Nat.le_zero.1 hlen)
      subst this
      have hnone : findBestPair pm [] = none := rfl
      rw [encodeLoop_of_none hnone]
      exact h
  | succ n ih =>
      intro toks hlen acc rr h
      cases hb : findBestPair pm toks with
      | none =>
          rw [encodeLoop_of_none hb]
          exact h
      | some e =>
          obtain ⟨p, i⟩ := e
          rw [encodeLoop_of_some hb]
          obtain ⟨hmem, hlook⟩ := findBestPair_mem hb
          have hpair := hcons p i hlook
          have hlt := mergePass_length_lt p.1 p.2 i toks hmem
          exact ih (mergePass p.1 p.2 i toks) (by omega) acc rr
            (expandId_mergePass hpair toks acc rr h)

/-! ## `seedAtoms` and `learnLoop` equations -/

theorem seedAtoms_pairmap : ∀ (l : List Nat) (v : Vocabulary),
    (seedAtoms v l).token_pair_to_id = v.token_pair_to_id
  | [], v => rfl
  | t :: l', v => by
      rw [seedAtoms, List.foldl_cons]
      by_cases hc : containsKV v.id_to_token t
      · rw [if_pos hc]
        exact seedAtoms_pairmap l' v
      · rw [if_neg hc]
        exact seedAtoms_pairmap l' _

theorem seedAtoms_next : ∀ (l : List Nat) (v : Vocabulary),
    (seedAtoms v l).next_token_id = v.next_token_id
  | [], v => rfl
  | t :: l', v => by
      rw [seedAtoms, List.foldl_cons]
      by_cases hc : containsKV v.id_to_token t
      · rw [if_pos hc]
        exact seedAtoms_next l' v
      · rw [if_neg hc]
        exact seedAtoms_next l' _

theorem seedAtoms_lookup : ∀ (l : List Nat) (v : Vocabulary) (k : Nat),
    lookupKV (seedAtoms v l).id_to_token k =
      if (lookupKV v.id_to_token k).isSome then lookupKV v.id_to_token k
      else if k ∈ l then some (Token.lonely k) else none
  | [], v, k => by
      cases h : lookupKV v.id_to_token k with
      | none => simp [seedAtoms, h]
      | some t => simp [seedAtoms, h]
  | t :: l', v, k => by
      rw [seedAtoms, List.foldl_cons]
      by_cases hc : containsKV v.id_to_token t
      · rw [if_pos hc]
        have ih := seedAtoms_lookup l' v k
        rw [seedAtoms] at ih
        rw [ih]
        by_cases hk : (lookupKV v.id_to_token k).isSome
        · rw [if_pos hk, if_pos hk]
        · rw [if_neg hk, if_neg hk]
          have hkt : k ≠ t := by
            intro h
            subst h
            rw [containsKV] at hc
            exact hk hc
          have hiff : (k ∈ t :: l') ↔ (k ∈ l') := by
            simp [List.mem_cons, hkt]
          simp only [hiff]
      · rw [if_neg hc]
        have ih := seedAtoms_lookup l'
          { v with id_to_token := insertKV v.id_to_token t (Token.lonely t) } k
        rw [seedAtoms] at ih
        rw [ih]
        by_cases hkt : t = k
        · subst hkt
          rw [containsKV] at hc
          have hnone : lookupKV v.id_to_token t = none := by
            cases h : lookupKV v.id_to_token t with
            | none => rfl
            | some x => rw [h] at hc; exact absurd rfl hc
          rw [lookupKV_insertKV, if_pos rfl]
          rw [hnone]
          simp
        · rw [lookupKV_insertKV, if_neg hkt]
          by_cases hk : (lookupKV v.id_to_token k).isSome
          · rw [if_pos hk, if_pos hk]
          · rw [if_neg hk, if_neg hk]
            have hkt' : k ≠ t := fun h => hkt h.symm
            have hiff : (k ∈ t :: l') ↔ (k ∈ l') := by
              simp [List.mem_cons, hkt']
            simp only [hiff]

theorem learnLoop_zero (v : Vocabulary) (toks : List Nat) :
    learnLoop 0 v toks = (v, toks) := rfl

theorem learnLoop_succ_stop (toks : List Nat) (p : Nat × Nat) (f : Nat)
    (h : maxByFreq (tally (windows2 toks)) = some (p, f)) (hf : ¬ 1 < f)
    (n : Nat) (v : Vocabulary) : learnLoop (n + 1) v toks = (v, toks) := by
  rw [learnLoop]
  split
  · rename_i p' f' heq
    rw [h] at heq
    cases heq
    rw [if_neg hf]
  · rfl

theorem learnLoop_succ_none (toks : List Nat)
    (h : maxByFreq (tally (windows2 toks)) = none)
    (n : Nat) (v : Vocabulary) : learnLoop (n + 1) v toks = (v, toks) := by
  rw [learnLoop]
  split
  · rename_i p' f' heq
    rw [h] at heq
    cases heq
  · rfl

theorem learnLoop_succ_merge (toks : List Nat) (p : Nat × Nat) (f : Nat)
    (h : maxByFreq (tally (windows2 toks)) = some (p, f)) (hf : 1 < f)
    (n : Nat) (v : Vocabulary) :
    learnLoop (n + 1) v toks =
      learnLoop n (registerMerge v p) (mergePass p.1 p.2 v.next_token_id toks) := by
  rw [learnLoop]
  split
  · rename_i p' f' heq
    rw [h] at heq
    cases heq
    rw [if_pos hf]
  · rename_i heq
    rw [h] at heq
    cases heq

/-- The selection of `Vocabulary::learn` picks a pair achieving the maximum
adjacent-pair frequency of the current tokenization. -/
theorem maxFreq_spec {toks : List Nat} {p : Nat × Nat} {f : Nat}
    (h : maxByFreq (tally (windows2 toks)) = some (p, f)) :
    (windows2 toks).count p = f ∧ ∀ q, (windows2 toks).count q ≤ f := by
  obtain ⟨l1, l2, hsplit, hle, hlt⟩ := maxByFreq_split h
  have hmem : (p, f) ∈ tally (windows2 toks) := by
    rw [hsplit]
    simp
  have hlook := lookupKV_of_mem (tally_uniqKeys (windows2 toks)) hmem
  rw [tally_lookup] at hlook
  by_cases h0 : (windows2 toks).count p = 0
  · rw [if_pos h0] at hlook
    cases hlook
  · rw [if_neg h0] at hlook
    have hcount := Option.some.inj hlook
    refine ⟨hcount, ?_⟩
    intro q
    cases hq : lookupKV (tally (windows2 toks)) q with
    | none =>
        rw [tally_lookup] at hq
        by_cases hq0 : (windows2 toks).count q = 0
        · omega
        · rw [if_neg hq0] at hq
          cases hq
    | some g =>
        have hqc : (windows2 toks).count q = g := by
          rw [tally_lookup] at hq
          by_cases hq0 : (windows2 toks).count q = 0
          · rw [if_pos hq0] at hq
            cases hq
          · rw [if_neg hq0] at hq
            exact Option.some.inj hq
        have hqmem := mem_of_lookupKV hq
        rw [hsplit] at hqmem
        rcases List.mem_append.1 hqmem with hm | hm
        · have := hle (q, g) hm
          omega
        · rcases List.mem_cons.1 hm with hm | hm
          · have : g = f := congrArg Prod.snd hm
            omega
          · have := hlt (q, g) hm
            omega

/-- The pair selected for merging occurs in the tokenization whenever its
frequency is positive. -/
theorem maxFreq_mem {toks : List Nat} {p : Nat × Nat} {f : Nat}
    (h : maxByFreq (tally (windows2 toks)) = some (p, f)) (hf : 0 < f) :
    p ∈ windows2 toks := by
  have := (maxFreq_spec h).1
  exact List.count_pos_iff.1 (by omega)

/-! ## The learned-table invariant -/

theorem containsKV_iff_lookup {α β : Type} [DecidableEq α] (m : List (α × β)) (k : α) :
    containsKV m k = true ↔ ∃ v, lookupKV m k = some v := by
  rw [containsKV, Option.isSome_iff_exists]

theorem containsKV_insertKV_of {α β : Type} [DecidableEq α] {m : List (α × β)} {k' : α}
    (k : α) (x : β) (h : containsKV m k' = true) : containsKV (insertKV m k x) k' = true := by
  rw [containsKV, lookupKV_insertKV]
  by_cases hk : k = k'
  · rw [if_pos hk]; rfl
  · rw [if_neg hk]; exact h

theorem containsKV_insertKV_self {α β : Type} [DecidableEq α] (m : List (α × β))
    (k : α) (x : β) : containsKV (insertKV m k x) k = true := by
  rw [containsKV, lookupKV_insertKV, if_pos rfl]; rfl

/-- Invariant of every vocabulary `learn` builds from a fresh table: ids are
bounded by the counter, every entry is either a self-coded atom or a pair of
strictly smaller, present ids, and the pair map is consistent with the token
map. -/
def Good (v : Vocabulary) : Prop :=
  (∀ k t, lookupKV v.id_to_token k = some t → k < v.next_token_id) ∧
  (∀ k t, lookupKV v.id_to_token k = some t →
      t = Token.lonely k ∨
      ∃ l r, t = Token.pair l r ∧ l < k ∧ r < k ∧
        containsKV v.id_to_token l = true ∧ containsKV v.id_to_token r = true) ∧
  (∀ p i, lookupKV v.token_pair_to_id p = some i →
      lookupKV v.id_to_token i = some (Token.pair p.1 p.2))

theorem Good.decreasing {v : Vocabulary} (h : Good v) : Decreasing v.id_to_token := by
  intro i l r hl
  rcases h.2.1 i _ hl with heq | ⟨l', r', heq, hl', hr', _, _⟩
  · cases heq
  · cases heq
    exact ⟨hl', hr'⟩

/-- Conclusions of the `learnLoop` induction for a pair `(v', toks')` equal to
the input `(v, toks)` (the loop stopped immediately). -/
theorem learnLoop_master_stopped (v : Vocabulary) (toks : List Nat)
    (H1 : Good v)
    (H2 : ∀ t ∈ toks, containsKV v.id_to_token t = true)
    (H3 : ∀ p i, lookupKV v.token_pair_to_id p = some i →
        i < v.next_token_id ∧ p ∉ windows2 toks) :
    Good v ∧
    (∀ t ∈ toks, containsKV v.id_to_token t = true) ∧
    v.next_token_id ≤ v.next_token_id ∧
    (∀ k t, lookupKV v.id_to_token k = some t → lookupKV v.id_to_token k = some t) ∧
    (∀ p i, lookupKV v.token_pair_to_id p = some i → lookupKV v.token_pair_to_id p = some i) ∧
    (∀ p i, lookupKV v.token_pair_to_id p = some i →
        lookupKV v.token_pair_to_id p = some i ∨ v.next_token_id ≤ i) ∧
    (∀ k l r, lookupKV v.id_to_token k = some (Token.pair l r) →
        lookupKV v.id_to_token k = some (Token.pair l r) ∨ v.next_token_id ≤ k) ∧
    encodeLoop v.token_pair_to_id toks = toks := by
  refine ⟨H1, H2, Nat.le_refl _, fun _ _ h => h, fun _ _ h => h,
    fun _ _ h => Or.inl h, fun _ _ _ h => Or.inl h, ?_⟩
  apply encodeLoop_of_none
  apply findBestPair_of_allNone
  intro q hq
  cases hl : lookupKV v.token_pair_to_id q with
  | none => rfl
  | some i => exact absurd hq (H3 q i hl).2

/-- Master induction over the merge loop: the invariant is preserved, the
table only grows, new entries carry ids at or above the incoming counter, and
re-encoding the incoming tokenization with the final pair map yields exactly
the final tokenization. -/
theorem learnLoop_master :
    ∀ (n : Nat) (v : Vocabulary) (toks : List Nat),
      Good v →
      (∀ t ∈ toks, containsKV v.id_to_token t = true) →
      (∀ p i, lookupKV v.token_pair_to_id p = some i →
          i < v.next_token_id ∧ p ∉ windows2 toks) →
      Good (learnLoop n v toks).1 ∧
      (∀ t ∈ (learnLoop n v toks).2, containsKV (learnLoop n v toks).1.id_to_token t = true) ∧
      v.next_token_id ≤ (learnLoop n v toks).1.next_token_id ∧
      (∀ k t, lookupKV v.id_to_token k = some t →
          lookupKV (learnLoop n v toks).1.id_to_token k = some t) ∧
      (∀ p i, lookupKV v.token_pair_to_id p = some i →
          lookupKV (learnLoop n v toks).1.token_pair_to_id p = some i) ∧
      (∀ p i, lookupKV (learnLoop n v toks).1.token_pair_to_id p = some i →
          lookupKV v.token_pair_to_id p = some i ∨ v.next_token_id ≤ i) ∧
      (∀ k l r, lookupKV (learnLoop n v toks).1.id_to_token k = some (Token.pair l r) →
          lookupKV v.id_to_token k = some (Token.pair l r) ∨ v.next_token_id ≤ k) ∧
      encodeLoop (learnLoop n v toks).1.token_pair_to_id toks = (learnLoop n v toks).2 := by
  intro n
  induction n with
  | zero =>
      intro v toks H1 H2 H3
      rw [learnLoop_zero]
      exact learnLoop_master_stopped v toks H1 H2 H3
  | succ n ih =>
      intro v toks H1 H2 H3
      cases hsel : maxByFreq (tally (windows2 toks)) with
      | none =>
          rw [learnLoop_succ_none toks hsel]
          exact learnLoop_master_stopped v toks H1 H2 H3
      | some e =>
          obtain ⟨p, f⟩ := e
          by_cases hf : 1 < f
          · rw [learnLoop_succ_merge toks p f hsel hf]
            obtain ⟨G1, G2, G3⟩ := H1
            set nid := v.next_token_id with hnid
            have hocc : p ∈ windows2 toks := maxFreq_mem hsel (by omega)
            obtain ⟨hp1mem, hp2mem⟩ := windows2_mem hocc
            have hp1cont := H2 _ hp1mem
            have hp2cont := H2 _ hp2mem
            obtain ⟨t1, ht1⟩ := (containsKV_iff_lookup _ _).1 hp1cont
            obtain ⟨t2, ht2⟩ := (containsKV_iff_lookup _ _).1 hp2cont
            have hp1lt : p.1 < nid := G1 _ _ ht1
            have hp2lt : p.2 < nid := G1 _ _ ht2
            have hnidlook : lookupKV v.id_to_token nid = none := by
              cases h : lookupKV v.id_to_token nid with
              | none => rfl
              | some t => exact absurd (G1 _ _ h) (by omega)
            have Lid : ∀ k, lookupKV (registerMerge v p).id_to_token k =
                if nid = k then some (Token.pair p.1 p.2) else lookupKV v.id_to_token k :=
              fun k => lookupKV_insertKV v.id_to_token nid k (Token.pair p.1 p.2)
            have Lpm : ∀ q, lookupKV (registerMerge v p).token_pair_to_id q =
                if p = q then some nid else lookupKV v.token_pair_to_id q :=
              fun q => lookupKV_insertKV v.token_pair_to_id p q nid
            have hnext1 : (registerMerge v p).next_token_id = nid + 1 := rfl
            have H1' : Good (registerMerge v p) := by
              refine ⟨?_, ?_, ?_⟩
              · intro k t hk
                rw [Lid k] at hk
                by_cases h : nid = k
                · rw [hnext1]; omega
                · rw [if_neg h] at hk
                  have := G1 _ _ hk
                  rw [hnext1]; omega
              · intro k t hk
                rw [Lid k] at hk
                by_cases h : nid = k
                · rw [if_pos h] at hk
                  cases hk
                  refine Or.inr ⟨p.1, p.2, rfl, by omega, by omega, ?_, ?_⟩
                  · exact containsKV_insertKV_of _ _ hp1cont
                  · exact containsKV_insertKV_of _ _ hp2cont
                · rw [if_neg h] at hk
                  rcases G2 _ _ hk with hl | ⟨l, r, ht, hlk, hrk, hlc, hrc⟩
                  · exact Or.inl hl
                  · exact Or.inr ⟨l, r, ht, hlk, hrk,
                      containsKV_insertKV_of _ _ hlc, containsKV_insertKV_of _ _ hrc⟩
              · intro q i hq
                rw [Lpm q] at hq
                by_cases h : p = q
                · rw [if_pos h] at hq
                  cases hq
                  rw [Lid, if_pos rfl]
                  rw [← h]
                · rw [if_neg h] at hq
                  have hcons := G3 _ _ hq
                  have hlt := (H3 _ _ hq).1
                  rw [Lid]
                  rw [if_neg (by omega)]
                  exact hcons
            have H2' : ∀ t ∈ mergePass p.1 p.2 nid toks,
                containsKV (registerMerge v p).id_to_token t = true := by
              intro t ht
              rcases mergePass_mem ht with h | h
              · subst h
                exact containsKV_insertKV_self _ _ _
              · exact containsKV_insertKV_of _ _ (H2 _ h)
            have H3' : ∀ q i, lookupKV (registerMerge v p).token_pair_to_id q = some i →
                i < (registerMerge v p).next_token_id ∧
                  q ∉ windows2 (mergePass p.1 p.2 nid toks) := by
              intro q i hq
              rw [Lpm q] at hq
              by_cases h : p = q
              · rw [if_pos h] at hq
                cases hq
                subst h
                refine ⟨by rw [hnext1]; omega, ?_⟩
                exact mergePass_no_self (by omega) (by omega) toks
              · rw [if_neg h] at hq
                obtain ⟨hilt, habs⟩ := H3 _ _ hq
                have hcons := G3 _ _ hq
                rcases G2 _ _ hcons with heq | ⟨l, r, ht, hlk, hrk, _, _⟩
                · cases heq
                · have hq1 : q.1 < i := by cases ht; exact hlk
                  have hq2 : q.2 < i := by cases ht; exact hrk
                  refine ⟨by rw [hnext1]; omega, ?_⟩
                  exact mergePass_no_new habs (by omega) (by omega)
            obtain ⟨C1, C2, C3, C4, C5, C6, C7, C8⟩ :=
              ih (registerMerge v p) (mergePass p.1 p.2 nid toks) H1' H2' H3'
            refine ⟨C1, C2, ?_, ?_, ?_, ?_, ?_, ?_⟩
            · rw [hnext1] at C3
              omega
            · intro k t hk
              apply C4
              rw [Lid]
              have hknid : k < nid := G1 _ _ hk
              rw [if_neg (by omega)]
              exact hk
            · intro q i hq
              apply C5
              have hqp : ¬ p = q := by
                intro h
                subst h
                exact (H3 _ _ hq).2 hocc
              rw [Lpm, if_neg hqp]
              exact hq
            · intro q i hq
              rcases C6 q i hq with hc | hc
              · rw [Lpm] at hc
                by_cases h : p = q
                · rw [if_pos h] at hc
                  cases hc
                  exact Or.inr (Nat.le_refl _)
                · rw [if_neg h] at hc
                  exact Or.inl hc
              · rw [hnext1] at hc
                exact Or.inr (by omega)
            · intro k l r hk
              rcases C7 k l r hk with hc | hc
              · rw [Lid] at hc
                by_cases h : nid = k
                · exact Or.inr (by omega)
                · rw [if_neg h] at hc
                  exact Or.inl hc
              · rw [hnext1] at hc
                exact Or.inr (by omega)
            · -- re-encoding `toks` with the final pair map
              have hlook1 : lookupKV (registerMerge v p).token_pair_to_id p = some nid := by
                rw [Lpm, if_pos rfl]
              have hlookF := C5 p nid hlook1
              have hsome : (findBestPair (learnLoop n (registerMerge v p)
                  (mergePass p.1 p.2 nid toks)).1.token_pair_to_id toks).isSome :=
                findBestPair_isSome hocc (by rw [hlookF]; rfl)
              obtain ⟨e, he⟩ := Option.isSome_iff_exists.1 hsome
              obtain ⟨p', i'⟩ := e
              obtain ⟨hp'mem, hp'look⟩ := findBestPair_mem he
              have hmin : i' ≤ nid := findBestPair_min he p nid hocc hlookF
              have hp'eq : p' = p ∧ i' = nid := by
                rcases C6 p' i' hp'look with hc | hc
                · rw [Lpm] at hc
                  by_cases h : p = p'
                  · rw [if_pos h] at hc
                    cases hc
                    exact ⟨h.symm, rfl⟩
                  · rw [if_neg h] at hc
                    exact absurd hp'mem (H3 _ _ hc).2
                · rw [hnext1] at hc
                  omega
              obtain ⟨hp'p, hi'nid⟩ := hp'eq
              subst hp'p
              subst hi'nid
              rw [encodeLoop_of_some he]
              exact C8
          · rw [learnLoop_succ_stop toks p f hsel hf]
            exact learnLoop_master_stopped v toks H1 H2 H3

/-! ## Top-level `learn` facts -/

theorem le_foldl_max : ∀ (l : List Nat) (a : Nat),
    a ≤ l.foldl (fun m c => if c > m then c else m) a
  | [], a => Nat.le_refl _
  | c :: l', a => by
      rw [List.foldl_cons]
      by_cases hc : c > a
      · rw [if_pos hc]
        have h := le_foldl_max l' c
        omega
      · rw [if_neg hc]
        exact le_foldl_max l' a

theorem le_maxChar : ∀ (l : List Nat) (a c : Nat), c ∈ l →
    c ≤ l.foldl (fun m c => if c > m then c else m) a
  | [], a, c, h => by simp at h
  | x :: l', a, c, h => by
      rw [List.foldl_cons]
      rcases List.mem_cons.1 h with h | h
      · subst h
        by_cases hc : c > a
        · rw [if_pos hc]
          exact le_foldl_max l' c
        · rw [if_neg hc]
          have := le_foldl_max l' a
          omega
      · exact le_maxChar l' _ c h

theorem corpus_le_maxChar {corpus : List Nat} {c : Nat} (h : c ∈ corpus) :
    c ≤ maxChar corpus := le_maxChar corpus 0 c h

theorem learn_new_eq (corpus : List Nat) (n : Nat) :
    learn Vocabulary.new corpus n =
      learnLoop n (seedAtoms ⟨[], [], maxChar corpus + 1⟩ corpus) corpus := rfl

/-- The vocabulary produced by a single `learn` call on a fresh table:
the invariant holds, every corpus code point is a self-coded atom, every
`Pair` entry sits strictly above every corpus code point, and re-encoding the
corpus with the final pair map reproduces the returned tokenization. -/
theorem learn_new_spec (corpus : List Nat) (n : Nat) :
    Good (learn Vocabulary.new corpus n).1 ∧
    (∀ c ∈ corpus,
      lookupKV (learn Vocabulary.new corpus n).1.id_to_token c = some (Token.lonely c)) ∧
    (∀ k l r, lookupKV (learn Vocabulary.new corpus n).1.id_to_token k = some (Token.pair l r) →
      maxChar corpus < k) ∧
    encodeLoop (learn Vocabulary.new corpus n).1.token_pair_to_id corpus =
      (learn Vocabulary.new corpus n).2 := by
  have hseedlook : ∀ k, lookupKV (seedAtoms ⟨[], [], maxChar corpus + 1⟩ corpus).id_to_token k =
      if k ∈ corpus then some (Token.lonely k) else none := by
    intro k
    rw [seedAtoms_lookup]
    rfl
  have hseedpm : (seedAtoms ⟨[], [], maxChar corpus + 1⟩ corpus).token_pair_to_id = [] :=
    seedAtoms_pairmap corpus _
  have hseednext : (seedAtoms ⟨[], [], maxChar corpus + 1⟩ corpus).next_token_id =
      maxChar corpus + 1 := seedAtoms_next corpus _
  have H1 : Good (seedAtoms ⟨[], [], maxChar corpus + 1⟩ corpus) := by
    refine ⟨?_, ?_, ?_⟩
    · intro k t hk
      rw [hseedlook] at hk
      by_cases h : k ∈ corpus
      · rw [hseednext]
        have := corpus_le_maxChar h
        omega
      · rw [if_neg h] at hk
        cases hk
    · intro k t hk
      rw [hseedlook] at hk
      by_cases h : k ∈ corpus
      · rw [if_pos h] at hk
        exact Or.inl (Option.some.inj hk).symm
      · rw [if_neg h] at hk
        cases hk
    · intro p i hp
      rw [hseedpm] at hp
      cases hp
  have H2 : ∀ t ∈ corpus,
      containsKV (seedAtoms ⟨[], [], maxChar corpus + 1⟩ corpus).id_to_token t = true := by
    intro t ht
    rw [containsKV, hseedlook, if_pos ht]
    rfl
  have H3 : ∀ p i,
      lookupKV (seedAtoms ⟨[], [], maxChar corpus + 1⟩ corpus).token_pair_to_id p = some i →
      i < (seedAtoms ⟨[], [], maxChar corpus + 1⟩ corpus).next_token_id ∧
        p ∉ windows2 corpus := by
    intro p i hp
    rw [hseedpm] at hp
    cases hp
  obtain ⟨C1, C2, C3, C4, C5, C6, C7, C8⟩ := learnLoop_master n _ corpus H1 H2 H3
  rw [learn_new_eq]
  refine ⟨C1, ?_, ?_, C8⟩
  · intro c hc
    apply C4
    rw [hseedlook, if_pos hc]
  · intro k l r hk
    rcases C7 k l r hk with hc | hc
    · rw [hseedlook] at hc
      by_cases h : k ∈ corpus
      · rw [if_pos h] at hc
        cases hc
      · rw [if_neg h] at hc
        cases hc
    · rw [hseednext] at hc
      omega

/-! ## `encode` equations and remaining helpers -/

theorem encode_eq_error {v : Vocabulary} {input : List Nat} {t : Nat}
    (h : input.find? (fun t => !(containsKV v.id_to_token t)) = some t) :
    encode v input = Except.error (EncodingError.charNotInVocab t) := by
  rw [encode, h]

theorem encode_eq_ok {v : Vocabulary} {input : List Nat}
    (h : input.find? (fun t => !(containsKV v.id_to_token t)) = none) :
    encode v input = Except.ok (encodeLoop v.token_pair_to_id input) := by
  rw [encode, h]

theorem learnLoop_nil (n : Nat) (v : Vocabulary) : learnLoop n v [] = (v, []) := by
  cases n with
  | zero => rfl
  | succ k => exact learnLoop_succ_none [] rfl k v

/-! ## Claims -/

/-- C2: encoding the exact training corpus with the table produced by a
(single, fresh) `learn` call yields exactly the tokenization `learn`
returned. -/
theorem c2_encoding_corpus_reproduces_learn_artifact (corpus : List Nat) (n : Nat) :
    encode (learn Vocabulary.new corpus n).1 corpus =
      Except.ok (learn Vocabulary.new corpus n).2 := by
  obtain ⟨hg, hatoms, hpairs, henc⟩ := learn_new_spec corpus n
  have hfind : corpus.find?
      (fun t => !(containsKV (learn Vocabulary.new corpus n).1.id_to_token t)) = none := by
    rw [List.find?_eq_none]
    intro x hx
    rw [containsKV, hatoms x hx]
    simp
  rw [encode_eq_ok hfind, henc]

/-- C3 (counterexample): on the corpus `"abcabc"` the pairs `(a,b)` and
`(b,c)` tie at frequency 2; the code merges `(b,c)` (the last maximal entry
of the insertion-ordered frequency map), while the spec's reference policy
(`(left, right)` ascending, first at the highest frequency) picks `(a,b)`. -/
theorem c3_reference_tiebreak_counterexample :
    maxByFreq (tally (windows2 [97, 98, 99, 97, 98, 99])) = some ((98, 99), 2) ∧
    specSelect [97, 98, 99, 97, 98, 99] = some (97, 98) ∧
    (learn Vocabulary.new [97, 98, 99, 97, 98, 99] 1).1.token_pair_to_id =
      [((98, 99), 100)] ∧
    ((98, 99) : Nat × Nat) ≠ (97, 98) :=
  ⟨rfl, rfl, rfl, by decide⟩

/-- C3 (amended): the selected pair always achieves the maximum adjacent-pair
frequency, and the deterministic tie-break the code actually implements takes
the **last** maximal entry of the insertion-ordered frequency map (first
occurrence order), not the `(left, right)`-ascending-first reference policy. -/
theorem c3_selection_max_frequency_last_tiebreak {toks : List Nat} {p : Nat × Nat}
    {f : Nat} (h : maxByFreq (tally (windows2 toks)) = some (p, f)) :
    ((windows2 toks).count p = f ∧ ∀ q, (windows2 toks).count q ≤ f) ∧
    ∃ l1 l2, tally (windows2 toks) = l1 ++ (p, f) :: l2 ∧ ∀ e ∈ l2, e.2 < f := by
  refine ⟨maxFreq_spec h, ?_⟩
  obtain ⟨l1, l2, hsplit, hle, hlt⟩ := maxByFreq_split h
  exact ⟨l1, l2, hsplit, hlt⟩

/-- C3 (witness): the amended statement at the `"abcabc"` tie. -/
theorem c3_selection_max_frequency_last_tiebreak_witness :
    maxByFreq (tally (windows2 [97, 98, 99, 97, 98, 99])) = some ((98, 99), 2) ∧
    (((windows2 [97, 98, 99, 97, 98, 99]).count ((98 : Nat), (99 : Nat)) = 2 ∧
      ∀ q, (windows2 [97, 98, 99, 97, 98, 99]).count q ≤ 2) ∧
    ∃ l1 l2, tally (windows2 [97, 98, 99, 97, 98, 99]) = l1 ++ ((98, 99), 2) :: l2 ∧
      ∀ e ∈ l2, e.2 < 2) :=
  ⟨rfl, c3_selection_max_frequency_last_tiebreak rfl⟩

/-- C4: each iteration of the encode loop selects, among the adjacent pairs
with a registered merge, the one whose merged id is lowest, rewrites via
`mergePass`, and the loop is at a fixed point exactly when no adjacent pair
is registered. -/
theorem c4_encode_loop_lowest_id_and_stop (m : List ((Nat × Nat) × Nat)) (toks : List Nat) :
    ((encodeLoop m toks = toks) ↔ ∀ q ∈ windows2 toks, lookupKV m q = none) ∧
    (∀ p i, findBestPair m toks = some (p, i) →
      lookupKV m p = some i ∧ p ∈ windows2 toks ∧
      (∀ q j, q ∈ windows2 toks → lookupKV m q = some j → i ≤ j) ∧
      encodeLoop m toks = encodeLoop m (mergePass p.1 p.2 i toks)) := by
  refine ⟨encodeLoop_fixpoint_iff m toks, ?_⟩
  intro p i h
  obtain ⟨hmem, hlook⟩ := findBestPair_mem h
  exact ⟨hlook, hmem, findBestPair_min h, encodeLoop_of_some h⟩

/-- C4 (witness): the loop facts at a concrete one-merge table. -/
theorem c4_encode_loop_lowest_id_and_stop_witness :
    findBestPair [((97, 98), 5)] [97, 98] = some ((97, 98), 5) ∧
    (lookupKV [((97, 98), 5)] ((97 : Nat), (98 : Nat)) = some 5 ∧
      ((97 : Nat), (98 : Nat)) ∈ windows2 [97, 98] ∧
      (∀ q j, q ∈ windows2 [97, 98] → lookupKV [((97, 98), 5)] q = some j → 5 ≤ j) ∧
      encodeLoop [((97, 98), 5)] [97, 98] = encodeLoop [((97, 98), 5)] (mergePass 97 98 5 [97, 98])) :=
  ⟨rfl, (c4_encode_loop_lowest_id_and_stop [((97, 98), 5)] [97, 98]).2 (97, 98) 5 rfl⟩

/-- C5: when the highest adjacent-pair frequency is at most 1 the merge loop
stops without registering anything, and on a corpus with no repeated adjacent
pair a fresh `learn` performs zero merges and leaves the merge-rule map
empty. -/
theorem c5_early_stop_on_frequency_one :
    (∀ (n : Nat) (v : Vocabulary) (toks : List Nat) (p : Nat × Nat) (f : Nat),
      maxByFreq (tally (windows2 toks)) = some (p, f) → f ≤ 1 →
      learnLoop n v toks = (v, toks)) ∧
    (∀ (corpus : List Nat) (n : Nat), (∀ q, (windows2 corpus).count q ≤ 1) →
      (learn Vocabulary.new corpus n).1.token_pair_to_id = [] ∧
      (learn Vocabulary.new corpus n).2 = corpus) := by
  constructor
  · intro n v toks p f h hf
    cases n with
    | zero => exact learnLoop_zero v toks
    | succ k => exact learnLoop_succ_stop toks p f h (by omega) k v
  · intro corpus n hcount
    rw [learn_new_eq]
    have hpm : (seedAtoms ⟨[], [], maxChar corpus + 1⟩ corpus).token_pair_to_id = [] :=
      seedAtoms_pairmap corpus _
    suffices h : learnLoop n (seedAtoms ⟨[], [], maxChar corpus + 1⟩ corpus) corpus =
        (seedAtoms ⟨[], [], maxChar corpus + 1⟩ corpus, corpus) by
      rw [h]
      exact ⟨hpm, rfl⟩
    cases n with
    | zero => exact learnLoop_zero _ _
    | succ k =>
        cases hsel : maxByFreq (tally (windows2 corpus)) with
        | none => exact learnLoop_succ_none corpus hsel k _
        | some e =>
            obtain ⟨p, f⟩ := e
            have hc := (maxFreq_spec hsel).1
            have hq := hcount p
            exact learnLoop_succ_stop corpus p f hsel (by omega) k _

/-- C5 (witness): `"abcdef"` has no repeated adjacent pair, so a fresh `learn`
with budget 5 registers no merge and returns the corpus unchanged. -/
theorem c5_early_stop_on_frequency_one_witness :
    (learn Vocabulary.new [97, 98, 99, 100, 101, 102] 5).1.token_pair_to_id = [] ∧
    (learn Vocabulary.new [97, 98, 99, 100, 101, 102] 5).2 = [97, 98, 99, 100, 101, 102] := by
  have hcount : ∀ q : Nat × Nat, (windows2 [97, 98, 99, 100, 101, 102]).count q ≤ 1 := by
    have hgen : ∀ (l : List (Nat × Nat)), l.Nodup → ∀ q : Nat × Nat, l.count q ≤ 1 := by
      intro l
      induction l with
      | nil => intro _ q; simp
      | cons a l' ih =>
          intro h q
          rw [List.nodup_cons] at h
          rw [List.count_cons]
          by_cases hq : q = a
          · subst hq
            have h0 : l'.count q = 0 := List.count_eq_zero.2 h.1
            simp [h0]
          · have hq' : ¬ a = q := fun hh => hq hh.symm
            have hb : (a == q) = false := by simp [hq']
            rw [hb]
            simpa using ih h.2 q
    exact hgen _ (by decide)
  exact c5_early_stop_on_frequency_one.2 [97, 98, 99, 100, 101, 102] 5 hcount

/-- C7: training is total and degenerate inputs give degenerate results: an
empty corpus leaves both mappings unchanged and returns an empty
tokenization for every budget, and a zero budget performs no merges. -/
theorem c7_learn_total_degenerate_inputs :
    (∀ (v : Vocabulary) (n : Nat),
      (learn v [] n).1.id_to_token = v.id_to_token ∧
      (learn v [] n).1.token_pair_to_id = v.token_pair_to_id ∧
      (learn v [] n).2 = []) ∧
    (∀ (v : Vocabulary) (corpus : List Nat),
      (learn v corpus 0).1.token_pair_to_id = v.token_pair_to_id ∧
      (learn v corpus 0).2 = corpus) := by
  constructor
  · intro v n
    have hL : learn v [] n =
        learnLoop n (if v.next_token_id = 0 then
          { v with next_token_id := maxChar [] + 1 } else v) [] := rfl
    rw [hL, learnLoop_nil]
    by_cases h0 : v.next_token_id = 0
    · rw [if_pos h0]
      exact ⟨rfl, rfl, rfl⟩
    · rw [if_neg h0]
      exact ⟨rfl, rfl, rfl⟩
  · intro v corpus
    have hL : learn v corpus 0 =
        learnLoop 0 (seedAtoms (if v.next_token_id = 0 then
          { v with next_token_id := maxChar corpus + 1 } else v) corpus) corpus := rfl
    rw [hL, learnLoop_zero]
    refine ⟨?_, rfl⟩
    rw [seedAtoms_pairmap]
    by_cases h0 : v.next_token_id = 0
    · rw [if_pos h0]
    · rw [if_neg h0]

/-- C1 (counterexample): with the table from `learn("aaa", 1)`, every code
point of the text `"b"` (98) has an entry in the table — the *merged* entry
`98 ↦ Pair(97,97)` — encoding succeeds, yet decoding returns `"aa"`, not
`"b"`: having an entry is not enough for the round-trip, the entry must be
atomic. -/
theorem c1_roundtrip_counterexample :
    (∀ c ∈ [98], containsKV (learn Vocabulary.new [97, 97, 97] 1).1.id_to_token c = true) ∧
    encode (learn Vocabulary.new [97, 97, 97] 1).1 [98] = Except.ok [98] ∧
    decode (learn Vocabulary.new [97, 97, 97] 1).1 [98] = some (Except.ok [97, 97]) ∧
    ¬ decode (learn Vocabulary.new [97, 97, 97] 1).1 [98] = some (Except.ok [98]) := by
  refine ⟨by decide, ?_, rfl, ?_⟩
  · have hfind : [98].find?
        (fun t => !(containsKV (learn Vocabulary.new [97, 97, 97] 1).1.id_to_token t)) =
        none := rfl
    rw [encode_eq_ok hfind]
    have hb : findBestPair (learn Vocabulary.new [97, 97, 97] 1).1.token_pair_to_id [98] =
        none := rfl
    rw [encodeLoop_of_none hb]
  · intro h
    rw [show decode (learn Vocabulary.new [97, 97, 97] 1).1 [98] =
        some (Except.ok [97, 97]) from rfl] at h
    simp at h

/-- C1 (amended): for the table built by a single `learn` call on a fresh
vocabulary, decoding the result of encoding returns the original text for
every text whose code points are all registered as *atomic* entries
(`c ↦ Lonely c`), which is exactly the set of code points of the training
corpus. -/
theorem c1_roundtrip_for_atomic_texts (corpus : List Nat) (n : Nat) (text : List Nat)
    (hatom : ∀ c ∈ text,
      lookupKV (learn Vocabulary.new corpus n).1.id_to_token c = some (Token.lonely c))
    (hscalar : ∀ c ∈ text, isScalar c = true) :
    ∃ out, encode (learn Vocabulary.new corpus n).1 text = Except.ok out ∧
      decode (learn Vocabulary.new corpus n).1 out = some (Except.ok text) := by
  obtain ⟨hg, _, _, _⟩ := learn_new_spec corpus n
  have hfind : text.find?
      (fun t => !(containsKV (learn Vocabulary.new corpus n).1.id_to_token t)) = none := by
    rw [List.find?_eq_none]
    intro x hx
    rw [containsKV, hatom x hx]
    simp
  refine ⟨encodeLoop (learn Vocabulary.new corpus n).1.token_pair_to_id text,
    encode_eq_ok hfind, ?_⟩
  have hexp0 : ∃ f, expandId (learn Vocabulary.new corpus n).1.id_to_token f text [] =
      some (Except.ok text) := by
    obtain ⟨f, hf⟩ := expandId_atoms text [] hatom hscalar
    rw [List.nil_append] at hf
    exact ⟨f, hf⟩
  have hexp := encodeLoop_preserves_expands hg.2.2 text.length text (Nat.le_refl _)
    [] text hexp0
  rw [decode]
  exact decodeGo_ok_of_expands hg.decreasing _ [] text hexp

/-- C1 (witness): the round-trip at corpus `"aaa"`, one merge, text `"aa"`. -/
theorem c1_roundtrip_for_atomic_texts_witness :
    (∀ c ∈ [97, 97], lookupKV (learn Vocabulary.new [97, 97, 97] 1).1.id_to_token c =
      some (Token.lonely c)) ∧
    (∀ c ∈ [97, 97], isScalar c = true) ∧
    ∃ out, encode (learn Vocabulary.new [97, 97, 97] 1).1 [97, 97] = Except.ok out ∧
      decode (learn Vocabulary.new [97, 97, 97] 1).1 out = some (Except.ok [97, 97]) :=
  ⟨by decide, by decide,
    c1_roundtrip_for_atomic_texts [97, 97, 97] 1 [97, 97] (by decide) (by decide)⟩

/-- C6 (counterexample): code point 98 has an entry in the `learn("aaa", 1)`
table, but that entry is `Pair(97,97)` — there is no atomic entry for 98 —
and yet `encode` accepts the input `[98]` without error: the code checks for
*any* entry, not an atomic one. -/
theorem c6_nonatomic_entry_counterexample :
    lookupKV (learn Vocabulary.new [97, 97, 97] 1).1.id_to_token 98 =
      some (Token.pair 97 97) ∧
    (∀ c : Nat, ¬ lookupKV (learn Vocabulary.new [97, 97, 97] 1).1.id_to_token 98 =
      some (Token.lonely c)) ∧
    encode (learn Vocabulary.new [97, 97, 97] 1).1 [98] = Except.ok [98] := by
  refine ⟨rfl, ?_, ?_⟩
  · intro c h
    rw [show lookupKV (learn Vocabulary.new [97, 97, 97] 1).1.id_to_token 98 =
        some (Token.pair 97 97) from rfl] at h
    simp at h
  · have hfind : [98].find?
        (fun t => !(containsKV (learn Vocabulary.new [97, 97, 97] 1).1.id_to_token t)) =
        none := rfl
    rw [encode_eq_ok hfind]
    have hb : findBestPair (learn Vocabulary.new [97, 97, 97] 1).1.token_pair_to_id [98] =
        none := rfl
    rw [encodeLoop_of_none hb]

/-- C6 (amended): `encode` fails with `CharNotInVocab` if and only if some
input code point has **no entry of any kind** in `id_to_token`; the error
carries the first such code point (everything before it being present), and a
successful encode means every input code point had an entry. -/
theorem c6_error_characterization (v : Vocabulary) (input : List Nat) :
    ((∃ c ∈ input, containsKV v.id_to_token c = false) ↔
      ∃ c, encode v input = Except.error (EncodingError.charNotInVocab c)) ∧
    (∀ c, encode v input = Except.error (EncodingError.charNotInVocab c) →
      containsKV v.id_to_token c = false ∧
      ∃ pre post, input = pre ++ c :: post ∧
        ∀ x ∈ pre, containsKV v.id_to_token x = true) ∧
    (∀ out, encode v input = Except.ok out →
      (∀ c ∈ input, containsKV v.id_to_token c = true) ∧
      out = encodeLoop v.token_pair_to_id input) := by
  cases hfind : input.find? (fun t => !(containsKV v.id_to_token t)) with
  | none =>
      have hok := encode_eq_ok hfind
      have hall : ∀ c ∈ input, containsKV v.id_to_token c = true := by
        rw [List.find?_eq_none] at hfind
        intro c hc
        have := hfind c hc
        simpa using this
      refine ⟨?_, ?_, ?_⟩
      · constructor
        · rintro ⟨c, hc, hfalse⟩
          rw [hall c hc] at hfalse
          cases hfalse
        · rintro ⟨c, hc⟩
          rw [hok] at hc
          cases hc
      · intro c hc
        rw [hok] at hc
        cases hc
      · intro out hout
        rw [hok] at hout
        exact ⟨hall, (Except.ok.inj hout).symm⟩
  | some t =>
      have herr := encode_eq_error hfind
      rw [List.find?_eq_some] at hfind
      obtain ⟨hpt, pre, post, hsplit, hpre⟩ := hfind
      have htf : containsKV v.id_to_token t = false := by
        simpa using hpt
      have hpre' : ∀ x ∈ pre, containsKV v.id_to_token x = true := by
        intro x hx
        have := hpre x hx
        simpa using this
      have htmem : t ∈ input := by
        rw [hsplit]
        exact List.mem_append_right _ (List.mem_cons_self _ _)
      refine ⟨?_, ?_, ?_⟩
      · exact ⟨fun _ => ⟨t, herr⟩, fun _ => ⟨t, htmem, htf⟩⟩
      · intro c hc
        rw [herr] at hc
        have hct : t = c := by
          have h1 := Except.error.inj hc
          exact EncodingError.charNotInVocab.inj h1
        subst hct
        exact ⟨htf, pre, post, hsplit, hpre'⟩
      · intro out hout
        rw [herr] at hout
        cases hout

/-- C6 (witness): with a table holding only id 1, encoding `[3]` fails with
`CharNotInVocab 3`, and 3 is the first missing code point. -/
theorem c6_error_characterization_witness :
    encode ⟨[(1, Token.lonely 1)], [], 2⟩ [3] =
      Except.error (EncodingError.charNotInVocab 3) ∧
    (containsKV (Vocabulary.mk [(1, Token.lonely 1)] [] 2).id_to_token 3 = false ∧
      ∃ pre post, ([3] : List Nat) = pre ++ 3 :: post ∧
        ∀ x ∈ pre, containsKV (Vocabulary.mk [(1, Token.lonely 1)] [] 2).id_to_token x = true) :=
  ⟨rfl, (c6_error_characterization ⟨[(1, Token.lonely 1)], [], 2⟩ [3]).2.1 3 rfl⟩

/-- C8: the code violates the id-immutability invariant.  After
`learn("aaa", 1)` the counter stands at 99; a second call `learn("ccc", 1)`
first registers code point 99 as the atomic `Lonely 99` during seeding and
then the merge of `(99, 99)` overwrites that same id with `Pair 99 99` —
an id's definition changes after its first insertion. -/
theorem c8_second_learn_overwrites_id :
    (learn Vocabulary.new [97, 97, 97] 1).1.next_token_id = 99 ∧
    lookupKV (seedAtoms (learn Vocabulary.new [97, 97, 97] 1).1 [99, 99, 99]).id_to_token 99 =
      some (Token.lonely 99) ∧
    lookupKV (learn (learn Vocabulary.new [97, 97, 97] 1).1 [99, 99, 99] 1).1.id_to_token 99 =
      some (Token.pair 99 99) :=
  ⟨rfl, rfl, rfl⟩

/-- C9: on the reference corpus `"aaabdaaabac"`, any fresh `learn` with budget
at least 3 performs exactly 3 merges: final tokenization length 5, table of
7 entries (4 distinct characters plus 3 merges), counter at 104. -/
theorem c9_reference_corpus_example (n : Nat) (hn : 3 ≤ n) :
    (learn Vocabulary.new [97, 97, 97, 98, 100, 97, 97, 97, 98, 97, 99] n).2.length = 5 ∧
    (learn Vocabulary.new [97, 97, 97, 98, 100, 97, 97, 97, 98, 97, 99] n).1.id_to_token.length = 7 ∧
    (learn Vocabulary.new [97, 97, 97, 98, 100, 97, 97, 97, 98, 97, 99] n).1.token_pair_to_id.length = 3 ∧
    (learn Vocabulary.new [97, 97, 97, 98, 100, 97, 97, 97, 98, 97, 99] n).1.next_token_id = 104 := by
  obtain ⟨k, rfl⟩ : ∃ k, n = k + 3 := ⟨n - 3, by omega⟩
  have e0 : learn Vocabulary.new [97, 97, 97, 98, 100, 97, 97, 97, 98, 97, 99] (k + 3) =
      learnLoop (k + 3)
        ⟨[(97, Token.lonely 97), (98, Token.lonely 98), (100, Token.lonely 100),
          (99, Token.lonely 99)], [], 101⟩
        [97, 97, 97, 98, 100, 97, 97, 97, 98, 97, 99] := rfl
  have e1 : ∀ j, learnLoop (j + 1)
      ⟨[(97, Token.lonely 97), (98, Token.lonely 98), (100, Token.lonely 100),
        (99, Token.lonely 99)], [], 101⟩
      [97, 97, 97, 98, 100, 97, 97, 97, 98, 97, 99] =
      learnLoop j
        ⟨[(97, Token.lonely 97), (98, Token.lonely 98), (100, Token.lonely 100),
          (99, Token.lonely 99), (101, Token.pair 97 97)], [((97, 97), 101)], 102⟩
        [101, 97, 98, 100, 101, 97, 98, 97, 99] := by
    intro j
    rw [learnLoop_succ_merge [97, 97, 97, 98, 100, 97, 97, 97, 98, 97, 99] (97, 97) 4 rfl
      (by norm_num)]
    rfl
  have e2 : ∀ j, learnLoop (j + 1)
      ⟨[(97, Token.lonely 97), (98, Token.lonely 98), (100, Token.lonely 100),
        (99, Token.lonely 99), (101, Token.pair 97 97)], [((97, 97), 101)], 102⟩
      [101, 97, 98, 100, 101, 97, 98, 97, 99] =
      learnLoop j
        ⟨[(97, Token.lonely 97), (98, Token.lonely 98), (100, Token.lonely 100),
          (99, Token.lonely 99), (101, Token.pair 97 97), (102, Token.pair 97 98)],
          [((97, 97), 101), ((97, 98), 102)], 103⟩
        [101, 102, 100, 101, 102, 97, 99] := by
    intro j
    rw [learnLoop_succ_merge [101, 97, 98, 100, 101, 97, 98, 97, 99] (97, 98) 2 rfl
      (by norm_num)]
    rfl
  have e3 : ∀ j, learnLoop (j + 1)
      ⟨[(97, Token.lonely 97), (98, Token.lonely 98), (100, Token.lonely 100),
        (99, Token.lonely 99), (101, Token.pair 97 97), (102, Token.pair 97 98)],
        [((97, 97), 101), ((97, 98), 102)], 103⟩
      [101, 102, 100, 101, 102, 97, 99] =
      learnLoop j
        ⟨[(97, Token.lonely 97), (98, Token.lonely 98), (100, Token.lonely 100),
          (99, Token.lonely 99), (101, Token.pair 97 97), (102, Token.pair 97 98),
          (103, Token.pair 101 102)],
          [((97, 97), 101), ((97, 98), 102), ((101, 102), 103)], 104⟩
        [103, 100, 103, 97, 99] := by
    intro j
    rw [learnLoop_succ_merge [101, 102, 100, 101, 102, 97, 99] (101, 102) 2 rfl
      (by norm_num)]
    rfl
  have e4 : ∀ j, learnLoop j
      ⟨[(97, Token.lonely 97), (98, Token.lonely 98), (100, Token.lonely 100),
        (99, Token.lonely 99), (101, Token.pair 97 97), (102, Token.pair 97 98),
        (103, Token.pair 101 102)],
        [((97, 97), 101), ((97, 98), 102), ((101, 102), 103)], 104⟩
      [103, 100, 103, 97, 99] =
      (⟨[(97, Token.lonely 97), (98, Token.lonely 98), (100, Token.lonely 100),
        (99, Token.lonely 99), (101, Token.pair 97 97), (102, Token.pair 97 98),
        (103, Token.pair 101 102)],
        [((97, 97), 101), ((97, 98), 102), ((101, 102), 103)], 104⟩,
        [103, 100, 103, 97, 99]) := by
    intro j
    cases j with
    | zero => rfl
    | succ j' =>
        exact learnLoop_succ_stop [103, 100, 103, 97, 99] (97, 99) 1 rfl (by norm_num) j' _
  rw [e0, e1 (k + 2), e2 (k + 1), e3 k, e4 k]
  exact ⟨rfl, rfl, rfl, rfl⟩

/-- C9 (witness): the reference example at budget exactly 3. -/
theorem c9_reference_corpus_example_witness :
    3 ≤ 3 ∧
    ((learn Vocabulary.new [97, 97, 97, 98, 100, 97, 97, 97, 98, 97, 99] 3).2.length = 5 ∧
    (learn Vocabulary.new [97, 97, 97, 98, 100, 97, 97, 97, 98, 97, 99] 3).1.id_to_token.length = 7 ∧
    (learn Vocabulary.new [97, 97, 97, 98, 100, 97, 97, 97, 98, 97, 99] 3).1.token_pair_to_id.length = 3 ∧
    (learn Vocabulary.new [97, 97, 97, 98, 100, 97, 97, 97, 98, 97, 99] 3).1.next_token_id = 104) :=
  ⟨by decide, c9_reference_corpus_example 3 (by decide)⟩

/-- C10: after a single `learn` call on a fresh vocabulary, every `Pair`
entry of the table references only strictly smaller ids that are present in
the table, every merged id exceeds every code point of the training corpus,
and consequently `decode` terminates (is never fuel-exhausted) on **every**
input id sequence. -/
theorem c10_decode_total_on_learned_tables (corpus : List Nat) (n : Nat) :
    (∀ k l r,
      lookupKV (learn Vocabulary.new corpus n).1.id_to_token k = some (Token.pair l r) →
      l < k ∧ r < k ∧
      containsKV (learn Vocabulary.new corpus n).1.id_to_token l = true ∧
      containsKV (learn Vocabulary.new corpus n).1.id_to_token r = true ∧
      ∀ c ∈ corpus, c < k) ∧
    (∀ ids, (decode (learn Vocabulary.new corpus n).1 ids).isSome = true) := by
  obtain ⟨hg, hatoms, hpairs, _⟩ := learn_new_spec corpus n
  constructor
  · intro k l r hk
    rcases hg.2.1 k _ hk with heq | ⟨l', r', heq, hl', hr', hlc, hrc⟩
    · cases heq
    · obtain ⟨h1, h2⟩ := Token.pair.inj heq
      subst h1
      subst h2
      refine ⟨hl', hr', hlc, hrc, ?_⟩
      intro c hc
      have hk' := hpairs k _ _ hk
      have := corpus_le_maxChar hc
      omega
  · intro ids
    rw [decode]
    exact decodeGo_isSome hg.decreasing ids []

/-- C10 (witness): the invariants and decode-totality at the `learn("aaa",1)`
table, on an id sequence containing the merged id and an unknown id. -/
theorem c10_decode_total_on_learned_tables_witness :
    lookupKV (learn Vocabulary.new [97, 97, 97] 1).1.id_to_token 98 =
      some (Token.pair 97 97) ∧
    (97 < 98 ∧ 97 < 98 ∧
      containsKV (learn Vocabulary.new [97, 97, 97] 1).1.id_to_token 97 = true ∧
      containsKV (learn Vocabulary.new [97, 97, 97] 1).1.id_to_token 97 = true ∧
      ∀ c ∈ [97, 97, 97], c < 98) ∧
    (decode (learn Vocabulary.new [97, 97, 97] 1).1 [98, 12345]).isSome = true :=
  ⟨rfl, (c10_decode_total_on_learned_tables [97, 97, 97] 1).1 98 97 97 rfl,
    (c10_decode_total_on_learned_tables [97, 97, 97] 1).2 [98, 12345]⟩

end BPE
